import Mathlib

/-!
Verification of the `fixed_index_vec` repository: a shallow embedding of the
`FixedIndexVec` container (src/fixed_index_vec/mod.rs, pos.rs,
compress_result.rs, trait_impls.rs) and of its near-duplicate copy in
src/internal/mod.rs, together with theorems settling the specification's
claims about it.

Modelling conventions:
* `Vec<Pos<Value>>` becomes `List (Pos Value)`; `VecDeque<usize>` becomes
  `List Nat` with the deque front at the list head (the code only uses
  `pop_front`, `insert`, `retain` and iteration on it).
* `self.values[i]` (an in-bounds slice access in every guarded call site)
  becomes `List.getD i Pos.Empty`; `List.set` models in-place assignment
  (both are no-ops out of range, which the source's guards make unreachable).
* `mem::take(&mut self.values[index])` reads the slot and replaces it with
  the `Default` value, which is `Pos::Empty`.
* `VecDeque::partition_point(pred)` is a binary search returning the number
  of leading elements satisfying `pred` on a partitioned sequence; the
  `vacancies` deque is kept ascending, so on every call site it equals the
  length of the `takeWhile pred` prefix, which is how it is modelled.
* Fallible or panicking operations return `Option` (the `Index` trait's
  out-of-bounds panic becomes `none`).
All state-updating operations return the updated container paired with the
source function's return value.
-/

set_option maxHeartbeats 1000000

/-- `Pos<Value>` from src/fixed_index_vec/pos.rs: one cell of the backing
store, either `Empty`, `Reserved`, or `Used(value)`. -/
inductive Pos (Value : Type) where
  | Empty : Pos Value
  | Reserved : Pos Value
  | Used : Value → Pos Value
  deriving DecidableEq

namespace Pos

/-- `Pos::is_empty`. -/
def is_empty : Pos Value → Bool
  | Empty => true
  | _ => false

/-- `Pos::is_used`. -/
def is_used : Pos Value → Bool
  | Used _ => true
  | _ => false

/-- `Pos::is_reserved`. -/
def is_reserved : Pos Value → Bool
  | Reserved => true
  | _ => false

/-- `Pos::opt` (also models `as_opt_ref`/`as_opt_mut`, which observe the same
contents by reference). -/
def opt : Pos Value → Option Value
  | Used value => some value
  | _ => none

end Pos

/-- `FixedIndexVec<Value>` from src/fixed_index_vec/mod.rs. -/
structure FixedIndexVec (Value : Type) where
  /-- Holds positions where the values are stored. -/
  values : List (Pos Value)
  /-- Indexes pointing where empty positions are found (deque front first). -/
  vacancies : List Nat
  /-- Current amount of reserved spaces. -/
  reserved_spaces : Nat
  deriving DecidableEq

/-- Slot lookup `self.values[index]`, defaulting out of range (call sites in
the source guard the bound). -/
def pget (l : List (Pos Value)) (i : Nat) : Pos Value :=
  l.getD i Pos.Empty

/-- `Vec::swap_remove(i)`: swap the last element into position `i` and pop. -/
def swapRemove (l : List α) (i : Nat) : List α :=
  match l.getLast? with
  | none => l
  | some a => (l.set i a).dropLast

namespace FixedIndexVec

/-- `FixedIndexVec::new`. -/
def new : FixedIndexVec Value :=
  { values := [], vacancies := [], reserved_spaces := 0 }

/-- `FixedIndexVec::push`: fill the front vacancy if one exists, else append;
returns the index used. -/
def push (s : FixedIndexVec Value) (value : Value) : FixedIndexVec Value × Nat :=
  match s.vacancies with
  | vacant_index :: rest =>
      ({ s with values := s.values.set vacant_index (Pos.Used value),
                vacancies := rest }, vacant_index)
  | [] =>
      ({ s with values := s.values ++ [Pos.Used value] }, s.values.length)

/-- The trailing-empty run length `self.values.iter().rev().take_while(is_empty).count()`
computed by `clean_right`. -/
def trailingEmpties (l : List (Pos Value)) : Nat :=
  (l.reverse.takeWhile Pos.is_empty).length

/-- `FixedIndexVec::clean_right`: pop every trailing `Empty` slot (the
source pops them one by one with `swap_remove(first_index_to_remove)`),
then drop the removed indexes from `vacancies`. -/
def clean_right (s : FixedIndexVec Value) : FixedIndexVec Value :=
  let leading_empty_poses := trailingEmpties s.values
  if leading_empty_poses = 0 then s
  else
    let first_index_to_remove := s.values.length - leading_empty_poses
    { s with
      values := (fun l => swapRemove l first_index_to_remove)^[leading_empty_poses] s.values,
      vacancies := s.vacancies.filter (fun vacant_index => vacant_index < first_index_to_remove) }

/-- `FixedIndexVec::remove`: `None` when out of range or already `Empty`;
otherwise record the index into `vacancies` at its partition point, take the
slot out (leaving `Empty`), and trim the right end. -/
def remove (s : FixedIndexVec Value) (index : Nat) : FixedIndexVec Value × Option Value :=
  if s.values.length ≤ index ∨ (pget s.values index).is_empty = true then (s, none)
  else
    let pos := (s.vacancies.takeWhile (fun previous_vacancy_index => previous_vacancy_index < index)).length
    let res := (pget s.values index).opt
    (clean_right { s with
        values := s.values.set index Pos.Empty,
        vacancies := s.vacancies.take pos ++ index :: s.vacancies.drop pos }, res)

/-- `FixedIndexVec::reserve_pos`: bump the reserved counter, then claim the
front vacancy or append a `Reserved` slot; returns the index. -/
def reserve_pos (s : FixedIndexVec Value) : FixedIndexVec Value × Nat :=
  let s1 := { s with reserved_spaces := s.reserved_spaces + 1 }
  match s1.vacancies with
  | vacant_index :: rest =>
      ({ s1 with values := s1.values.set vacant_index Pos.Reserved,
                 vacancies := rest }, vacant_index)
  | [] =>
      ({ s1 with values := s1.values ++ [Pos.Reserved] }, s1.values.length)

/-- `FixedIndexVec::push_reserved`: fill a `Reserved` slot, handing the value
back when the index is not a reserved position. -/
def push_reserved (s : FixedIndexVec Value) (reserved_pos : Nat) (value : Value) :
    FixedIndexVec Value × Option Value :=
  if s.values.length ≤ reserved_pos ∨ (pget s.values reserved_pos).is_reserved = false then
    (s, some value)
  else
    ({ s with values := s.values.set reserved_pos (Pos.Used value),
              reserved_spaces := s.reserved_spaces - 1 }, none)

/-- `FixedIndexVec::remove_reserved_pos`: cancel a reservation, setting the
slot `Empty` (note: the source does not return the index to `vacancies`). -/
def remove_reserved_pos (s : FixedIndexVec Value) (reserved_pos : Nat) :
    FixedIndexVec Value × Bool :=
  if s.values.length ≤ reserved_pos ∨ (pget s.values reserved_pos).is_reserved = false then
    (s, false)
  else
    ({ s with values := s.values.set reserved_pos Pos.Empty,
              reserved_spaces := s.reserved_spaces - 1 }, true)

/-- `Vec::swap(a, b)` on the backing store. -/
def listSwap (l : List (Pos Value)) (a b : Nat) : List (Pos Value) :=
  (l.set a (pget l b)).set b (pget l a)

/-- The `while self.values[end_cursor].is_empty()` loop body of `compress`,
entered at cursor `c` with `vacant < c`: walk the cursor down past `Empty`
slots; result `(c', true)` when a non-empty slot is found at `c'`, and
`(c', false)` when the cursor fell to `vacant` (the source's
`if end_cursor <= vacant { return; }` continue). The `0` case is unreachable
(guards keep the cursor above `vacant`); the source would underflow there. -/
def compressFindUsed (values : List (Pos Value)) (vacant : Nat) : Nat → Nat × Bool
  | 0 => if (pget values 0).is_empty = true then (0, false) else (0, true)
  | c + 1 =>
    if (pget values (c + 1)).is_empty = true then
      if c ≤ vacant then (c, false)
      else compressFindUsed values vacant c
    else (c + 1, true)

/-- One iteration of `compress`'s `for_each` over the taken `vacancies`:
state is `(values, end_cursor, index_results)`. -/
def compressStep (save_results : Bool)
    (st : List (Pos Value) × Nat × List (Nat × Nat)) (vacant : Nat) :
    List (Pos Value) × Nat × List (Nat × Nat) :=
  let (values, end_cursor, index_results) := st
  if end_cursor ≤ vacant then (values, end_cursor, index_results)
  else if end_cursor - 1 ≤ vacant then (values, end_cursor - 1, index_results)
  else
    let fr := compressFindUsed values vacant (end_cursor - 1)
    if fr.2 then
      (listSwap values vacant fr.1, fr.1,
        if save_results then index_results ++ [(fr.1, vacant)] else index_results)
    else (values, fr.1, index_results)

/-- `FixedIndexVec::compress`: trim the right end, then walk the vacancies
(taken out of the deque) with a descending end cursor, swapping the highest
non-empty slot into each vacancy, then trim once more; returns the new
container and the `CompressResult` list of `(old_index, new_index)` pairs. -/
def compress (s : FixedIndexVec Value) (save_results : Bool) :
    FixedIndexVec Value × List (Nat × Nat) :=
  let s1 := clean_right s
  if s1.vacancies.isEmpty = true then (s1, [])
  else
    let fin := s1.vacancies.foldl (compressStep save_results)
      (s1.values, s1.values.length, [])
    (clean_right { values := fin.1, vacancies := [],
                   reserved_spaces := s1.reserved_spaces }, fin.2.2)

/-- `FixedIndexVec::clear`. -/
def clear (_s : FixedIndexVec Value) : FixedIndexVec Value :=
  { values := [], vacancies := [], reserved_spaces := 0 }

/-- `FixedIndexVec::len`. -/
def len (s : FixedIndexVec Value) : Nat :=
  s.values.length

/-- `FixedIndexVec::reserved_spaces_len`. -/
def reserved_spaces_len (s : FixedIndexVec Value) : Nat :=
  s.reserved_spaces

/-- `FixedIndexVec::empty_spaces_len`. -/
def empty_spaces_len (s : FixedIndexVec Value) : Nat :=
  s.vacancies.length

/-- `FixedIndexVec::used_spaces_len`. -/
def used_spaces_len (s : FixedIndexVec Value) : Nat :=
  s.values.length - (s.reserved_spaces_len + s.empty_spaces_len)

/-- `FixedIndexVec::contains_index`. -/
def contains_index (s : FixedIndexVec Value) (index : Nat) : Bool :=
  decide (index < s.values.length) && (pget s.values index).is_used

/-- `FixedIndexVec::get` (observes the slot's value when occupied). -/
def get (s : FixedIndexVec Value) (index : Nat) : Option Value :=
  if s.contains_index index = true then (pget s.values index).opt else none

/-- `FixedIndexVec::get_mut` returns a mutable borrow of the same value
`get` observes; modelled by the observed value. -/
def get_mut (s : FixedIndexVec Value) (index : Nat) : Option Value :=
  if s.contains_index index = true then (pget s.values index).opt else none

/-- The `Index` trait impl from src/fixed_index_vec/trait_impls.rs (with a
`usize` index): a raw read of `self.values[index]` that panics out of range;
the panic is modelled by `none` (`IndexMut` reads the same slot). -/
def indexOp (s : FixedIndexVec Value) (index : Nat) : Option (Pos Value) :=
  s.values[index]?

end FixedIndexVec

/-- `CompressResult::update_old_indexes` from
src/fixed_index_vec/compress_result.rs, with `IndexType = usize`: each held
index is replaced by the `new_index` of the first report pair whose
`old_index` equals it (the source's `filter(..).next()`), else kept. -/
def update_old_indexes (r : List (Nat × Nat)) (old_indexes : List Nat) : List Nat :=
  old_indexes.map fun value =>
    match (r.filter fun changed => value = changed.1).head? with
    | none => value
    | some changed => changed.2

/-- The push/remove operation alphabet of claim C1's sequences. -/
inductive Op01 (Value : Type) where
  | push : Value → Op01 Value
  | remove : Nat → Op01 Value
  deriving DecidableEq

/-- Apply one push/remove operation (dropping the returned value). -/
def applyOp01 (s : FixedIndexVec Value) : Op01 Value → FixedIndexVec Value
  | Op01.push v => (s.push v).1
  | Op01.remove i => (s.remove i).1

/-- Run a sequence of push/remove operations. -/
def runOps01 (s : FixedIndexVec Value) (ops : List (Op01 Value)) : FixedIndexVec Value :=
  ops.foldl applyOp01 s

/-- The free-list well-formedness of spec §3: `vacancies` is strictly
ascending and lists exactly the in-range `Empty` slots (stated with bounded
quantifiers so that it is decidable on concrete containers). -/
def FreeListInv (s : FixedIndexVec Value) : Prop :=
  s.vacancies.Pairwise (· < ·) ∧
  (∀ j ∈ s.vacancies, j < s.values.length ∧ (pget s.values j).is_empty = true) ∧
  (∀ j < s.values.length, (pget s.values j).is_empty = true → j ∈ s.vacancies)

instance instDecidableFreeListInv (s : FixedIndexVec Value) :
    Decidable (FreeListInv s) := by
  unfold FreeListInv
  infer_instance

/-- Spec §3 invariant 5: the last slot, if any, is not `Empty`. -/
def lastNotEmpty (s : FixedIndexVec Value) : Prop :=
  s.values = [] ∨ (pget s.values (s.values.length - 1)).is_empty = false

instance instDecidableLastNotEmpty (s : FixedIndexVec Value) :
    Decidable (lastNotEmpty s) :=
  decidable_of_iff
    (s.values.length = 0 ∨ (pget s.values (s.values.length - 1)).is_empty = false)
    (by unfold lastNotEmpty; rw [List.length_eq_zero])

namespace Internal

/-- `Pos<T>` as re-declared at the bottom of src/internal/mod.rs. -/
inductive Pos (T : Type) where
  | Empty : Pos T
  | Reserved : Pos T
  | Used : T → Pos T
  deriving DecidableEq

namespace Pos

/-- Internal `Pos::is_empty`. -/
def is_empty : Pos T → Bool
  | Empty => true
  | _ => false

/-- Internal `Pos::is_used`. -/
def is_used : Pos T → Bool
  | Used _ => true
  | _ => false

/-- Internal `Pos::is_reserved`. -/
def is_reserved : Pos T → Bool
  | Reserved => true
  | _ => false

/-- Internal `Pos::opt` (also models `as_opt_ref`/`as_opt_mut`). -/
def opt : Pos T → Option T
  | Used value => some value
  | _ => none

end Pos

/-- The duplicate `FixedIndexVec<Value>` of src/internal/mod.rs. -/
structure FixedIndexVec (Value : Type) where
  /-- Holds positions where the values are stored. -/
  values : List (Pos Value)
  /-- Indexes pointing where empty positions are found (deque front first). -/
  vacancies : List Nat
  /-- Current amount of reserved spaces. -/
  reserved_spaces : Nat
  deriving DecidableEq

/-- Internal slot lookup `self.values[index]`. -/
def pget (l : List (Pos Value)) (i : Nat) : Pos Value :=
  l.getD i Pos.Empty

namespace FixedIndexVec

/-- Internal `FixedIndexVec::new`. -/
def new : FixedIndexVec Value :=
  { values := [], vacancies := [], reserved_spaces := 0 }

/-- Internal `FixedIndexVec::push`. -/
def push (s : FixedIndexVec Value) (value : Value) : FixedIndexVec Value × Nat :=
  match s.vacancies with
  | vacant_index :: rest =>
      ({ s with values := s.values.set vacant_index (Pos.Used value),
                vacancies := rest }, vacant_index)
  | [] =>
      ({ s with values := s.values ++ [Pos.Used value] }, s.values.length)

/-- Internal trailing-empty run length computed by `clean_right`. -/
def trailingEmpties (l : List (Pos Value)) : Nat :=
  (l.reverse.takeWhile Pos.is_empty).length

/-- Internal `FixedIndexVec::clean_right`. -/
def clean_right (s : FixedIndexVec Value) : FixedIndexVec Value :=
  let leading_empty_poses := trailingEmpties s.values
  if leading_empty_poses = 0 then s
  else
    let first_index_to_remove := s.values.length - leading_empty_poses
    { s with
      values := (fun l => swapRemove l first_index_to_remove)^[leading_empty_poses] s.values,
      vacancies := s.vacancies.filter (fun vacant_index => vacant_index < first_index_to_remove) }

/-- Internal `FixedIndexVec::remove`. -/
def remove (s : FixedIndexVec Value) (index : Nat) : FixedIndexVec Value × Option Value :=
  if s.values.length ≤ index ∨ (pget s.values index).is_empty = true then (s, none)
  else
    let pos := (s.vacancies.takeWhile (fun previous_vacancy_index => previous_vacancy_index < index)).length
    let res := (pget s.values index).opt
    (clean_right { s with
        values := s.values.set index Pos.Empty,
        vacancies := s.vacancies.take pos ++ index :: s.vacancies.drop pos }, res)

/-- Internal `FixedIndexVec::reserve_pos`. -/
def reserve_pos (s : FixedIndexVec Value) : FixedIndexVec Value × Nat :=
  let s1 := { s with reserved_spaces := s.reserved_spaces + 1 }
  match s1.vacancies with
  | vacant_index :: rest =>
      ({ s1 with values := s1.values.set vacant_index Pos.Reserved,
                 vacancies := rest }, vacant_index)
  | [] =>
      ({ s1 with values := s1.values ++ [Pos.Reserved] }, s1.values.length)

/-- Internal `FixedIndexVec::push_reserved`. -/
def push_reserved (s : FixedIndexVec Value) (reserved_pos : Nat) (value : Value) :
    FixedIndexVec Value × Option Value :=
  if s.values.length ≤ reserved_pos ∨ (pget s.values reserved_pos).is_reserved = false then
    (s, some value)
  else
    ({ s with values := s.values.set reserved_pos (Pos.Used value),
              reserved_spaces := s.reserved_spaces - 1 }, none)

/-- Internal `FixedIndexVec::remove_reserved_pos`. -/
def remove_reserved_pos (s : FixedIndexVec Value) (reserved_pos : Nat) :
    FixedIndexVec Value × Bool :=
  if s.values.length ≤ reserved_pos ∨ (pget s.values reserved_pos).is_reserved = false then
    (s, false)
  else
    ({ s with values := s.values.set reserved_pos Pos.Empty,
              reserved_spaces := s.reserved_spaces - 1 }, true)

/-- Internal `Vec::swap(a, b)`. -/
def listSwap (l : List (Pos Value)) (a b : Nat) : List (Pos Value) :=
  (l.set a (pget l b)).set b (pget l a)

/-- Internal `compress` inner while loop (same shape as the public one). -/
def compressFindUsed (values : List (Pos Value)) (vacant : Nat) : Nat → Nat × Bool
  | 0 => if (pget values 0).is_empty = true then (0, false) else (0, true)
  | c + 1 =>
    if (pget values (c + 1)).is_empty = true then
      if c ≤ vacant then (c, false)
      else compressFindUsed values vacant c
    else (c + 1, true)

/-- Internal `compress` per-vacancy step. -/
def compressStep (save_results : Bool)
    (st : List (Pos Value) × Nat × List (Nat × Nat)) (vacant : Nat) :
    List (Pos Value) × Nat × List (Nat × Nat) :=
  let (values, end_cursor, index_results) := st
  if end_cursor ≤ vacant then (values, end_cursor, index_results)
  else if end_cursor - 1 ≤ vacant then (values, end_cursor - 1, index_results)
  else
    let fr := compressFindUsed values vacant (end_cursor - 1)
    if fr.2 then
      (listSwap values vacant fr.1, fr.1,
        if save_results then index_results ++ [(fr.1, vacant)] else index_results)
    else (values, fr.1, index_results)

/-- Internal `FixedIndexVec::compress`. -/
def compress (s : FixedIndexVec Value) (save_results : Bool) :
    FixedIndexVec Value × List (Nat × Nat) :=
  let s1 := clean_right s
  if s1.vacancies.isEmpty = true then (s1, [])
  else
    let fin := s1.vacancies.foldl (compressStep save_results)
      (s1.values, s1.values.length, [])
    (clean_right { values := fin.1, vacancies := [],
                   reserved_spaces := s1.reserved_spaces }, fin.2.2)

/-- Internal `FixedIndexVec::clear`. -/
def clear (_s : FixedIndexVec Value) : FixedIndexVec Value :=
  { values := [], vacancies := [], reserved_spaces := 0 }

/-- Internal `FixedIndexVec::len`. -/
def len (s : FixedIndexVec Value) : Nat :=
  s.values.length

/-- Internal `FixedIndexVec::reserved_spaces_len`. -/
def reserved_spaces_len (s : FixedIndexVec Value) : Nat :=
  s.reserved_spaces

/-- Internal `FixedIndexVec::empty_spaces_len`. -/
def empty_spaces_len (s : FixedIndexVec Value) : Nat :=
  s.vacancies.length

/-- Internal `FixedIndexVec::used_spaces_len`. -/
def used_spaces_len (s : FixedIndexVec Value) : Nat :=
  s.values.length - (s.reserved_spaces_len + s.empty_spaces_len)

/-- Internal `FixedIndexVec::contains_index`. -/
def contains_index (s : FixedIndexVec Value) (index : Nat) : Bool :=
  decide (index < s.values.length) && (pget s.values index).is_used

/-- Internal `FixedIndexVec::get`. -/
def get (s : FixedIndexVec Value) (index : Nat) : Option Value :=
  if s.contains_index index = true then (pget s.values index).opt else none

/-- Internal `FixedIndexVec::get_mut` (modelled by the observed value). -/
def get_mut (s : FixedIndexVec Value) (index : Nat) : Option Value :=
  if s.contains_index index = true then (pget s.values index).opt else none

end FixedIndexVec

end Internal

/-- The shared state-updating interface of the two implementations, used to
state claim C9 over arbitrary call sequences. -/
inductive Op (Value : Type) where
  | push : Value → Op Value
  | remove : Nat → Op Value
  | reserve_pos : Op Value
  | push_reserved : Nat → Value → Op Value
  | remove_reserved_pos : Nat → Op Value
  | compress : Bool → Op Value
  | clear : Op Value

/-- Apply one shared-interface operation to the public container. -/
def applyOp (s : FixedIndexVec Value) : Op Value → FixedIndexVec Value
  | Op.push v => (s.push v).1
  | Op.remove i => (s.remove i).1
  | Op.reserve_pos => s.reserve_pos.1
  | Op.push_reserved i v => (s.push_reserved i v).1
  | Op.remove_reserved_pos i => (s.remove_reserved_pos i).1
  | Op.compress b => (s.compress b).1
  | Op.clear => s.clear

/-- Run a sequence of shared-interface operations on the public container. -/
def runOps (s : FixedIndexVec Value) (ops : List (Op Value)) : FixedIndexVec Value :=
  ops.foldl applyOp s

/-- Apply one shared-interface operation to the internal container. -/
def applyOpInternal (s : Internal.FixedIndexVec Value) : Op Value → Internal.FixedIndexVec Value
  | Op.push v => (s.push v).1
  | Op.remove i => (s.remove i).1
  | Op.reserve_pos => s.reserve_pos.1
  | Op.push_reserved i v => (s.push_reserved i v).1
  | Op.remove_reserved_pos i => (s.remove_reserved_pos i).1
  | Op.compress b => (s.compress b).1
  | Op.clear => s.clear

/-- Run a sequence of shared-interface operations on the internal container. -/
def runOpsInternal (s : Internal.FixedIndexVec Value) (ops : List (Op Value)) :
    Internal.FixedIndexVec Value :=
  ops.foldl applyOpInternal s

/-- The field-wise translation from the internal `Pos` to the public one. -/
def Pos.ofInternal : Internal.Pos Value → Pos Value
  | Internal.Pos.Empty => Pos.Empty
  | Internal.Pos.Reserved => Pos.Reserved
  | Internal.Pos.Used v => Pos.Used v

/-- The field-wise translation from the internal container to the public one. -/
def FixedIndexVec.ofInternal (s : Internal.FixedIndexVec Value) : FixedIndexVec Value :=
  { values := s.values.map Pos.ofInternal,
    vacancies := s.vacancies,
    reserved_spaces := s.reserved_spaces }

/-- Loop invariant of `compress`'s fold over the taken vacancies. `V` is the
backing store right after the initial `clean_right`, `W` the current store,
`rem` the vacancies not yet processed, `ec` the end cursor and `R` the
recorded `(old, new)` pairs. -/
structure CompressInv (V W : List (Pos Value)) (rem : List Nat) (ec : Nat)
    (R : List (Nat × Nat)) : Prop where
  len_eq : W.length = V.length
  ec_le : ec ≤ V.length
  tail_empty : ∀ j, ec ≤ j → j < V.length → (pget W j).is_empty = true
  empty_iff : ∀ j, j < V.length → ((pget W j).is_empty = true ↔ (j ∈ rem ∨ ec ≤ j))
  rem_pw : rem.Pairwise (· < ·)
  rem_sub : ∀ j ∈ rem, j < V.length ∧ (pget V j).is_empty = true
  pairs_ok : ∀ p ∈ R, p.2 < p.1 ∧ p.2 < ec ∧ ec ≤ p.1 ∧ p.1 < V.length ∧
      (pget V p.1).is_empty = false ∧ (pget V p.2).is_empty = true ∧
      pget W p.2 = pget V p.1
  news_pw : (R.map Prod.snd).Pairwise (· < ·)
  olds_pw : (R.map Prod.fst).Pairwise (· > ·)
  news_lt_rem : ∀ p ∈ R, ∀ j ∈ rem, p.2 < j
  unchanged : ∀ j, j < ec → j ∉ R.map Prod.snd → pget W j = pget V j

open FixedIndexVec (trailingEmpties clean_right listSwap compressFindUsed compressStep)

/-! ### Basic slot and list lemmas -/

theorem Pos.is_empty_iff {p : Pos Value} : p.is_empty = true ↔ p = Pos.Empty := by
  cases p <;> simp [Pos.is_empty]

theorem Pos.is_used_iff {p : Pos Value} : p.is_used = true ↔ ∃ v, p = Pos.Used v := by
  cases p <;> simp [Pos.is_used]

theorem Pos.is_reserved_iff {p : Pos Value} : p.is_reserved = true ↔ p = Pos.Reserved := by
  cases p <;> simp [Pos.is_reserved]

theorem pget_eq (l : List (Pos Value)) (i : Nat) : pget l i = (l[i]?).getD Pos.Empty := by
  simp [pget]

theorem pget_oob {l : List (Pos Value)} {i : Nat} (h : l.length ≤ i) :
    pget l i = Pos.Empty := by
  simp [pget_eq, List.getElem?_eq_none h]

theorem pget_lt_of_ne_empty {l : List (Pos Value)} {i : Nat} (h : pget l i ≠ Pos.Empty) :
    i < l.length := by
  by_contra hn
  exact h (pget_oob (Nat.le_of_not_lt hn))

theorem pget_set_self {l : List (Pos Value)} {i : Nat} (h : i < l.length) (a : Pos Value) :
    pget (l.set i a) i = a := by
  simp [pget_eq, List.getElem?_set_self h]

theorem pget_set_ne {l : List (Pos Value)} {i j : Nat} (h : i ≠ j) (a : Pos Value) :
    pget (l.set i a) j = pget l j := by
  simp [pget_eq, List.getElem?_set_ne h]

theorem pget_append_left {l l2 : List (Pos Value)} {j : Nat} (h : j < l.length) :
    pget (l ++ l2) j = pget l j := by
  simp [pget_eq, List.getElem?_append_left h]

theorem pget_append_len {l : List (Pos Value)} (a : Pos Value) :
    pget (l ++ [a]) l.length = a := by
  simp [pget_eq, List.getElem?_append_right (Nat.le_refl _)]

theorem pget_take {l : List (Pos Value)} {j n : Nat} (h : j < n) :
    pget (l.take n) j = pget l j := by
  simp [pget_eq, List.getElem?_take_of_lt h]

/-! ### takeWhile positional lemmas -/

theorem takeWhile_length_le (p : α → Bool) (l : List α) :
    (l.takeWhile p).length ≤ l.length :=
  (l.takeWhile_sublist p).length_le

theorem takeWhile_getD_pred (p : α → Bool) (d : α) :
    ∀ (l : List α) (i : Nat), i < (l.takeWhile p).length → p (l.getD i d) = true := by
  intro l
  induction l with
  | nil => intro i h; simp [List.takeWhile] at h
  | cons a t ih =>
    intro i h
    by_cases hp : p a
    · cases i with
      | zero => simpa using hp
      | succ n =>
        rw [List.takeWhile_cons_of_pos hp] at h
        simpa using ih n (by simpa using h)
    · rw [List.takeWhile_cons_of_neg hp] at h
      simp at h

theorem takeWhile_getD_boundary (p : α → Bool) (d : α) :
    ∀ (l : List α), (l.takeWhile p).length < l.length →
      p (l.getD (l.takeWhile p).length d) = false := by
  intro l
  induction l with
  | nil => intro h; simp at h
  | cons a t ih =>
    intro h
    by_cases hp : p a
    · rw [List.takeWhile_cons_of_pos hp] at h ⊢
      simpa using ih (by simpa using h)
    · rw [List.takeWhile_cons_of_neg hp]
      simpa using hp

/-! ### trailingEmpties and clean_right characterization -/

theorem te_le (l : List (Pos Value)) : trailingEmpties l ≤ l.length := by
  simpa using takeWhile_length_le Pos.is_empty l.reverse

theorem getD_reverse {l : List α} {i : Nat} (h : i < l.length) (d : α) :
    l.reverse.getD i d = l.getD (l.length - 1 - i) d := by
  simp [List.getD_eq_getElem?_getD, List.getElem?_reverse h]

theorem te_tail_empty {l : List (Pos Value)} {j : Nat}
    (h1 : l.length - trailingEmpties l ≤ j) (h2 : j < l.length) :
    (pget l j).is_empty = true := by
  have hte := te_le l
  have hi : l.length - 1 - j < trailingEmpties l := by omega
  have hp := takeWhile_getD_pred Pos.is_empty Pos.Empty l.reverse (l.length - 1 - j)
    (by simpa [FixedIndexVec.trailingEmpties] using hi)
  rw [getD_reverse (by omega)] at hp
  have hidx : l.length - 1 - (l.length - 1 - j) = j := by omega
  rw [hidx] at hp
  exact hp

theorem te_boundary {l : List (Pos Value)} (h : trailingEmpties l < l.length) :
    (pget l (l.length - trailingEmpties l - 1)).is_empty = false := by
  have hp := takeWhile_getD_boundary Pos.is_empty Pos.Empty l.reverse
    (by simpa [FixedIndexVec.trailingEmpties] using h)
  have hlen : (l.reverse.takeWhile Pos.is_empty).length = trailingEmpties l := rfl
  rw [hlen] at hp
  rw [getD_reverse (by omega)] at hp
  have hidx : l.length - 1 - trailingEmpties l = l.length - trailingEmpties l - 1 := by omega
  rw [hidx] at hp
  exact hp

theorem te_eq_of {l : List (Pos Value)} {k : Nat} (hk : k ≤ l.length)
    (h1 : ∀ j, k ≤ j → j < l.length → (pget l j).is_empty = true)
    (h2 : k = 0 ∨ (pget l (k - 1)).is_empty = false) :
    trailingEmpties l = l.length - k := by
  rcases Nat.lt_trichotomy (trailingEmpties l) (l.length - k) with h | h | h
  · exfalso
    have hb := te_boundary (l := l) (by omega)
    have := h1 (l.length - trailingEmpties l - 1) (by omega) (by omega)
    rw [this] at hb
    exact Bool.noConfusion hb
  · exact h
  · exfalso
    have hkpos : 0 < k := by
      rcases Nat.eq_zero_or_pos k with rfl | hp
      · have := te_le l; omega
      · exact hp
    rcases h2 with rfl | hne
    · omega
    · have := te_tail_empty (l := l) (j := k - 1) (by omega) (by omega)
      rw [this] at hne
      exact Bool.noConfusion hne

theorem iterate_swapRemove_eq_take (k : Nat) :
    ∀ {first : Nat} (l : List (Pos Value)), l.length = first + k →
      (∀ j, first ≤ j → j < l.length → (pget l j).is_empty = true) →
      ((fun t => swapRemove t first)^[k]) l = l.take first := by
  induction k with
  | zero =>
    intro first l hlen _
    rw [Function.iterate_zero_apply, List.take_of_length_le (by omega)]
  | succ k ih =>
    intro first l hlen hemp
    rw [Function.iterate_succ_apply]
    have hne : l ≠ [] := by
      intro hnil
      rw [hnil] at hlen
      simp at hlen
      omega
    obtain ⟨a, ha⟩ : ∃ a, l.getLast? = some a := by
      cases hl : l.getLast? with
      | none => exact absurd (List.getLast?_eq_none_iff.mp hl) hne
      | some a => exact ⟨a, rfl⟩
    have hswap : swapRemove l first = ((l.set first a).take (l.length - 1)) := by
      rw [swapRemove, ha]
      simp [List.dropLast_eq_take]
    have hlen2 : ((l.set first a).take (l.length - 1)).length = first + k := by
      simp
      omega
    have hemp2 : ∀ j, first ≤ j → j < ((l.set first a).take (l.length - 1)).length →
        (pget ((l.set first a).take (l.length - 1)) j).is_empty = true := by
      intro j hj1 hj2
      rw [hlen2] at hj2
      rw [pget_take (by omega)]
      rcases eq_or_ne first j with rfl | hne2
      · rw [pget_set_self (by omega)]
        have halast : a = pget l (l.length - 1) := by
          rw [List.getLast?_eq_getElem?] at ha
          simp [pget_eq, ha]
        rw [halast]
        exact hemp _ (by omega) (by omega)
      · rw [pget_set_ne hne2]
        exact hemp _ hj1 (by omega)
    rw [hswap, ih _ hlen2 hemp2]
    rw [List.take_take, Nat.min_def]
    have hfle : first ≤ l.length - 1 := by omega
    simp only [if_pos hfle]
    rw [List.set_take]
    exact List.set_eq_of_length_le (by rw [List.length_take]; omega)

theorem clean_right_values (s : FixedIndexVec Value) :
    (clean_right s).values = s.values.take (s.values.length - trailingEmpties s.values) := by
  rw [FixedIndexVec.clean_right]
  by_cases h : trailingEmpties s.values = 0
  · simp only [h, if_true]
    rw [Nat.sub_zero, List.take_of_length_le (Nat.le_refl _)]
  · simp only [h, if_neg h]
    exact iterate_swapRemove_eq_take _ _ (by have := te_le s.values; omega)
      (fun j hj1 hj2 => te_tail_empty (by omega) hj2)

theorem clean_right_reserved (s : FixedIndexVec Value) :
    (clean_right s).reserved_spaces = s.reserved_spaces := by
  rw [FixedIndexVec.clean_right]
  by_cases h : trailingEmpties s.values = 0 <;> simp [h]

theorem clean_right_vacancies_zero (s : FixedIndexVec Value)
    (h : trailingEmpties s.values = 0) :
    (clean_right s).vacancies = s.vacancies := by
  rw [FixedIndexVec.clean_right]
  simp [h]

theorem clean_right_eq_self (s : FixedIndexVec Value)
    (h : trailingEmpties s.values = 0) :
    clean_right s = s := by
  rw [FixedIndexVec.clean_right]
  simp [h]

theorem clean_right_vacancies_pos (s : FixedIndexVec Value)
    (h : trailingEmpties s.values ≠ 0) :
    (clean_right s).vacancies = s.vacancies.filter
      (fun vacant_index => vacant_index < s.values.length - trailingEmpties s.values) := by
  rw [FixedIndexVec.clean_right]
  simp [h]

theorem clean_right_len (s : FixedIndexVec Value) :
    (clean_right s).values.length = s.values.length - trailingEmpties s.values := by
  rw [clean_right_values, List.length_take]
  omega

theorem clean_right_pget (s : FixedIndexVec Value) {j : Nat}
    (h : j < s.values.length - trailingEmpties s.values) :
    pget (clean_right s).values j = pget s.values j := by
  rw [clean_right_values, pget_take h]

theorem clean_right_len_le (s : FixedIndexVec Value) :
    (clean_right s).values.length ≤ s.values.length := by
  rw [clean_right_len]
  omega

theorem clean_right_lastNotEmpty (s : FixedIndexVec Value) :
    lastNotEmpty (clean_right s) := by
  rcases Nat.eq_zero_or_pos ((clean_right s).values.length) with hz | hp
  · exact Or.inl (List.length_eq_zero.mp hz)
  · right
    rw [clean_right_len] at hp ⊢
    rw [clean_right_pget s (by omega)]
    exact te_boundary (by omega)

/-! ### Partition-point insertion lemmas -/

theorem take_length_takeWhile (p : α → Bool) :
    ∀ l : List α, l.take ((l.takeWhile p).length) = l.takeWhile p := by
  intro l
  induction l with
  | nil => simp
  | cons a t ih =>
    by_cases hp : p a
    · rw [List.takeWhile_cons_of_pos hp]
      simpa using ih
    · rw [List.takeWhile_cons_of_neg hp]
      simp

theorem drop_length_takeWhile (p : α → Bool) :
    ∀ l : List α, l.drop ((l.takeWhile p).length) = l.dropWhile p := by
  intro l
  induction l with
  | nil => simp
  | cons a t ih =>
    by_cases hp : p a
    · rw [List.takeWhile_cons_of_pos hp, List.dropWhile_cons_of_pos hp]
      simpa using ih
    · rw [List.takeWhile_cons_of_neg hp, List.dropWhile_cons_of_neg hp]
      simp

theorem ppInsert_mem (l : List Nat) (i j k : Nat) :
    j ∈ l.take k ++ i :: l.drop k ↔ j = i ∨ j ∈ l := by
  rw [List.mem_append, List.mem_cons]
  constructor
  · rintro (h | rfl | h)
    · exact Or.inr ((List.take_sublist k l).mem h)
    · exact Or.inl rfl
    · exact Or.inr ((List.drop_sublist k l).mem h)
  · rintro (rfl | h)
    · exact Or.inr (Or.inl rfl)
    · rw [← List.take_append_drop k l] at h
      rcases List.mem_append.mp h with h | h
      · exact Or.inl h
      · exact Or.inr (Or.inr h)

theorem dropWhile_lt_gt {l : List Nat} {i : Nat}
    (hp : l.Pairwise (· < ·)) (hni : i ∉ l) :
    ∀ b ∈ l.dropWhile (fun x => decide (x < i)), i < b := by
  induction l with
  | nil => simp
  | cons a t ih =>
    by_cases ha : a < i
    · rw [List.dropWhile_cons_of_pos (by simpa using ha)]
      exact ih (List.Pairwise.sublist (List.sublist_cons_self a t) hp)
        (fun hm => hni (List.mem_cons_of_mem a hm))
    · rw [List.dropWhile_cons_of_neg (by simpa using ha)]
      intro b hb
      rcases List.mem_cons.mp hb with rfl | hb
      · have : i ≠ b := fun he => hni (he ▸ List.mem_cons_self b t)
        omega
      · have hab : a < b := (List.pairwise_cons.mp hp).1 b hb
        omega

theorem ppInsert_pairwise {l : List Nat} {i : Nat}
    (hp : l.Pairwise (· < ·)) (hni : i ∉ l) :
    (l.take ((l.takeWhile (fun x => decide (x < i))).length)
      ++ i :: l.drop ((l.takeWhile (fun x => decide (x < i))).length)).Pairwise (· < ·) := by
  rw [take_length_takeWhile, drop_length_takeWhile]
  rw [List.pairwise_append]
  refine ⟨List.Pairwise.sublist (l.takeWhile_sublist _) hp, ?_, ?_⟩
  · rw [List.pairwise_cons]
    exact ⟨dropWhile_lt_gt hp hni,
      List.Pairwise.sublist (l.dropWhile_sublist _) hp⟩
  · intro a ha b hb
    have hai : a < i := by
      have := List.mem_takeWhile_imp ha
      simpa using this
    rcases List.mem_cons.mp hb with rfl | hb
    · exact hai
    · exact lt_trans hai (dropWhile_lt_gt hp hni b hb)

theorem ppInsert_eq_orderedInsert (i : Nat) :
    ∀ l : List Nat,
      l.take ((l.takeWhile (fun x => decide (x < i))).length)
        ++ i :: l.drop ((l.takeWhile (fun x => decide (x < i))).length)
      = List.orderedInsert (· ≤ ·) i l := by
  intro l
  induction l with
  | nil => simp
  | cons a t ih =>
    by_cases ha : a < i
    · rw [List.takeWhile_cons_of_pos (by simpa using ha)]
      rw [List.orderedInsert, if_neg (by omega)]
      simpa using ih
    · rw [List.takeWhile_cons_of_neg (by simpa using ha)]
      rw [List.orderedInsert, if_pos (by omega)]
      simp

/-! ### Free-list invariant preservation -/

theorem FreeListInv.new : FreeListInv ((FixedIndexVec.new : FixedIndexVec Value)) := by
  refine ⟨List.Pairwise.nil, ?_, ?_⟩ <;> simp [FixedIndexVec.new]

theorem FreeListInv.clean_right {s : FixedIndexVec Value} (h : FreeListInv s) :
    FreeListInv (clean_right s) := by
  obtain ⟨hpw, hmem1, hmem2⟩ := h
  by_cases hte : trailingEmpties s.values = 0
  · rw [clean_right_eq_self s hte]
    exact ⟨hpw, hmem1, hmem2⟩
  · have hfle : s.values.length - trailingEmpties s.values ≤ s.values.length := by omega
    refine ⟨?_, ?_, ?_⟩
    · rw [clean_right_vacancies_pos s hte]
      exact List.Pairwise.filter _ hpw
    · intro j hj
      rw [clean_right_vacancies_pos s hte, List.mem_filter] at hj
      obtain ⟨hj, hlt⟩ := hj
      have hlt : j < s.values.length - trailingEmpties s.values := by simpa using hlt
      constructor
      · rw [clean_right_len]
        exact hlt
      · rw [clean_right_pget s hlt]
        exact (hmem1 j hj).2
    · intro j hj he
      rw [clean_right_len] at hj
      rw [clean_right_pget s hj] at he
      rw [clean_right_vacancies_pos s hte, List.mem_filter]
      exact ⟨hmem2 j (by omega) he, by simpa using hj⟩

theorem FreeListInv.push {s : FixedIndexVec Value} (h : FreeListInv s) (v : Value) :
    FreeListInv (s.push v).1 := by
  obtain ⟨hpw, hmem1, hmem2⟩ := h
  cases hv : s.vacancies with
  | nil =>
    simp only [FixedIndexVec.push, hv]
    refine ⟨List.Pairwise.nil, by simp, ?_⟩
    intro j hj he
    simp only [List.length_append, List.length_cons, List.length_nil] at hj
    rcases Nat.lt_or_ge j s.values.length with hlt | hge
    · rw [pget_append_left hlt] at he
      have := hmem2 j hlt he
      rw [hv] at this
      simp at this
    · have hj2 : j = s.values.length := by omega
      rw [hj2, pget_append_len] at he
      simp [Pos.is_empty] at he
  | cons vacant_index rest =>
    simp only [FixedIndexVec.push, hv]
    have hvi := hmem1 vacant_index (by rw [hv]; exact List.mem_cons_self _ _)
    have hrest := List.pairwise_cons.mp (hv ▸ hpw)
    refine ⟨hrest.2, ?_, ?_⟩
    · intro j hj
      have hjv : j ∈ s.vacancies := by rw [hv]; exact List.mem_cons_of_mem _ hj
      have hne : vacant_index ≠ j := fun he => by
        have := hrest.1 j hj
        omega
      constructor
      · simpa using (hmem1 j hjv).1
      · rw [pget_set_ne hne]
        exact (hmem1 j hjv).2
    · intro j hj he
      simp only [List.length_set] at hj
      have hne : vacant_index ≠ j := fun heq => by
        rw [← heq, pget_set_self hvi.1] at he
        simp [Pos.is_empty] at he
      rw [pget_set_ne hne] at he
      have := hmem2 j hj he
      rw [hv] at this
      rcases List.mem_cons.mp this with heq | hm
      · exact absurd heq.symm hne
      · exact hm

theorem FreeListInv.remove {s : FixedIndexVec Value} (h : FreeListInv s) (i : Nat) :
    FreeListInv (s.remove i).1 := by
  by_cases hc : s.values.length ≤ i ∨ (pget s.values i).is_empty = true
  · simpa [FixedIndexVec.remove, hc] using h
  · obtain ⟨hpw, hmem1, hmem2⟩ := h
    have hlen : i < s.values.length := by
      rcases Nat.lt_or_ge i s.values.length with h1 | h1
      · exact h1
      · exact absurd (Or.inl h1) hc
    have hne : (pget s.values i).is_empty = false := by
      rcases Bool.eq_false_or_eq_true (pget s.values i).is_empty with h1 | h1
      · exact absurd (Or.inr h1) hc
      · exact h1
    have hni : i ∉ s.vacancies := fun hm => by
      rw [(hmem1 i hm).2] at hne
      exact Bool.noConfusion hne
    simp only [FixedIndexVec.remove, if_neg hc]
    apply FreeListInv.clean_right
    refine ⟨ppInsert_pairwise hpw hni, ?_, ?_⟩
    · intro j hj
      rw [ppInsert_mem] at hj
      rcases hj with rfl | hj
      · refine ⟨by simpa using hlen, ?_⟩
        rw [pget_set_self hlen]
        simp [Pos.is_empty]
      · have hji : j ≠ i := fun he => hni (he ▸ hj)
        refine ⟨by simpa using (hmem1 j hj).1, ?_⟩
        rw [pget_set_ne (fun he => hji he.symm)]
        exact (hmem1 j hj).2
    · intro j hj he
      rw [ppInsert_mem]
      simp only [List.length_set] at hj
      rcases eq_or_ne j i with rfl | hji
      · exact Or.inl rfl
      · rw [pget_set_ne (fun he2 => hji he2.symm)] at he
        exact Or.inr (hmem2 j hj he)

theorem FreeListInv.applyOp01 {s : FixedIndexVec Value} (h : FreeListInv s)
    (op : Op01 Value) : FreeListInv (applyOp01 s op) := by
  cases op with
  | push v => exact h.push v
  | remove i => exact h.remove i

theorem FreeListInv.runOps01 {s : FixedIndexVec Value} (h : FreeListInv s)
    (ops : List (Op01 Value)) : FreeListInv (runOps01 s ops) := by
  induction ops generalizing s with
  | nil => exact h
  | cons op rest ih => exact ih (h.applyOp01 op)

/-! ### Slot preservation (claim C1) -/

theorem c1P_clean_right {s : FixedIndexVec Value} {k : Nat}
    (hkv : pget s.values k ≠ Pos.Empty) (hkn : k ∉ s.vacancies) :
    pget (clean_right s).values k = pget s.values k ∧ k ∉ (clean_right s).vacancies := by
  by_cases hte : trailingEmpties s.values = 0
  · rw [clean_right_eq_self s hte]
    exact ⟨rfl, hkn⟩
  · have hk : k < s.values.length - trailingEmpties s.values := by
      have hklen : k < s.values.length := pget_lt_of_ne_empty hkv
      by_contra hge
      exact hkv (Pos.is_empty_iff.mp (te_tail_empty (by omega) hklen))
    refine ⟨clean_right_pget s hk, ?_⟩
    rw [clean_right_vacancies_pos s hte]
    intro hm
    exact hkn (List.mem_of_mem_filter hm)

theorem c1P_push {s : FixedIndexVec Value} {k : Nat} {v : Value}
    (h1 : pget s.values k = Pos.Used v) (h2 : k ∉ s.vacancies) (v' : Value) :
    pget (s.push v').1.values k = Pos.Used v ∧ k ∉ (s.push v').1.vacancies := by
  cases hv : s.vacancies with
  | nil =>
    simp only [FixedIndexVec.push, hv]
    have hklen : k < s.values.length :=
      pget_lt_of_ne_empty (by rw [h1]; intro h; exact Pos.noConfusion h)
    exact ⟨by rw [pget_append_left hklen]; exact h1, by simp⟩
  | cons vacant_index rest =>
    simp only [FixedIndexVec.push, hv]
    have hvk : vacant_index ≠ k := fun he => h2 (by rw [hv, he]; exact List.mem_cons_self _ _)
    refine ⟨by rw [pget_set_ne hvk]; exact h1, fun hm => ?_⟩
    exact h2 (by rw [hv]; exact List.mem_cons_of_mem _ hm)

theorem c1P_remove {s : FixedIndexVec Value} {k : Nat} {v : Value}
    (h1 : pget s.values k = Pos.Used v) (h2 : k ∉ s.vacancies) {i : Nat} (hik : i ≠ k) :
    pget (s.remove i).1.values k = Pos.Used v ∧ k ∉ (s.remove i).1.vacancies := by
  by_cases hc : s.values.length ≤ i ∨ (pget s.values i).is_empty = true
  · simp only [FixedIndexVec.remove, if_pos hc]
    exact ⟨h1, h2⟩
  · simp only [FixedIndexVec.remove, if_neg hc]
    have hkv2 : pget (s.values.set i Pos.Empty) k = Pos.Used v := by
      rw [pget_set_ne hik]; exact h1
    have hkn2 : k ∉ s.vacancies.take
          ((s.vacancies.takeWhile fun previous_vacancy_index =>
            decide (previous_vacancy_index < i)).length)
        ++ i :: s.vacancies.drop
          ((s.vacancies.takeWhile fun previous_vacancy_index =>
            decide (previous_vacancy_index < i)).length) := by
      rw [ppInsert_mem]
      rintro (rfl | hm)
      · exact hik rfl
      · exact h2 hm
    have hcr := c1P_clean_right (s := { s with
        values := s.values.set i Pos.Empty,
        vacancies := s.vacancies.take
            ((s.vacancies.takeWhile fun previous_vacancy_index =>
              decide (previous_vacancy_index < i)).length)
          ++ i :: s.vacancies.drop
            ((s.vacancies.takeWhile fun previous_vacancy_index =>
              decide (previous_vacancy_index < i)).length) })
      (k := k) (by rw [hkv2]; intro h; exact Pos.noConfusion h) hkn2
    exact ⟨hcr.1.trans hkv2, hcr.2⟩

theorem c1P_runOps01 {s : FixedIndexVec Value} {k : Nat} {v : Value}
    (h1 : pget s.values k = Pos.Used v) (h2 : k ∉ s.vacancies)
    (ops : List (Op01 Value)) (hops : Op01.remove k ∉ ops) :
    pget (runOps01 s ops).values k = Pos.Used v ∧ k ∉ (runOps01 s ops).vacancies := by
  induction ops generalizing s with
  | nil => exact ⟨h1, h2⟩
  | cons op rest ih =>
    have hop : Op01.remove k ≠ op := fun he => hops (he ▸ List.mem_cons_self _ _)
    have hrest : Op01.remove k ∉ rest := fun hm => hops (List.mem_cons_of_mem _ hm)
    show pget (runOps01 (applyOp01 s op) rest).values k = Pos.Used v ∧ _
    cases op with
    | push v' =>
      obtain ⟨p1, p2⟩ := c1P_push h1 h2 v'
      exact ih p1 p2 hrest
    | remove i =>
      have hik : i ≠ k := fun he => hop (by rw [he])
      obtain ⟨p1, p2⟩ := c1P_remove h1 h2 hik
      exact ih p1 p2 hrest

theorem push_fresh {s : FixedIndexVec Value} (h : FreeListInv s) (v : Value) :
    pget (s.push v).1.values (s.push v).2 = Pos.Used v ∧
      (s.push v).2 ∉ (s.push v).1.vacancies := by
  obtain ⟨hpw, hmem1, hmem2⟩ := h
  cases hv : s.vacancies with
  | nil =>
    simp only [FixedIndexVec.push, hv]
    exact ⟨pget_append_len _, by simp⟩
  | cons vacant_index rest =>
    simp only [FixedIndexVec.push, hv]
    have hvi := hmem1 vacant_index (by rw [hv]; exact List.mem_cons_self _ _)
    refine ⟨pget_set_self hvi.1 _, fun hm => ?_⟩
    have := (List.pairwise_cons.mp (hv ▸ hpw)).1 vacant_index hm
    omega

/-- C1: an index handed out by `push` stays valid — `contains_index` true and
`get` returning the pushed value — across any further pushes and removes that
do not remove that same index (sequences built from the empty container). -/
theorem c1_handle_stability (pre : List (Op01 Nat)) (v : Nat) (post : List (Op01 Nat))
    (hpost : Op01.remove ((runOps01 FixedIndexVec.new pre).push v).2 ∉ post) :
    (runOps01 ((runOps01 FixedIndexVec.new pre).push v).1 post).contains_index
        ((runOps01 FixedIndexVec.new pre).push v).2 = true ∧
    (runOps01 ((runOps01 FixedIndexVec.new pre).push v).1 post).get
        ((runOps01 FixedIndexVec.new pre).push v).2 = some v := by
  have hinv : FreeListInv (runOps01 FixedIndexVec.new pre) :=
    FreeListInv.new.runOps01 pre
  obtain ⟨hp1, hp2⟩ := push_fresh hinv v
  obtain ⟨hq1, hq2⟩ := c1P_runOps01 hp1 hp2 post hpost
  have hklen : ((runOps01 FixedIndexVec.new pre).push v).2 <
      (runOps01 ((runOps01 FixedIndexVec.new pre).push v).1 post).values.length :=
    pget_lt_of_ne_empty (by rw [hq1]; intro h; exact Pos.noConfusion h)
  have hcont : (runOps01 ((runOps01 FixedIndexVec.new pre).push v).1 post).contains_index
      ((runOps01 FixedIndexVec.new pre).push v).2 = true := by
    rw [FixedIndexVec.contains_index, hq1]
    simp [Pos.is_used, hklen]
  refine ⟨hcont, ?_⟩
  rw [FixedIndexVec.get, if_pos hcont, hq1]
  rfl

/-- Closed instance of C1: a concrete push/remove history around a tracked
index, evaluated on both sides. -/
theorem c1_handle_stability_witness :
    (Op01.remove ((runOps01 FixedIndexVec.new
        [Op01.push 10, Op01.push 20, Op01.push 30, Op01.remove 1]).push 5).2 ∉
      ([Op01.push 40, Op01.remove 0, Op01.push 50, Op01.remove 3] : List (Op01 Nat))) ∧
    ((runOps01 ((runOps01 FixedIndexVec.new
        [Op01.push 10, Op01.push 20, Op01.push 30, Op01.remove 1]).push 5).1
        [Op01.push 40, Op01.remove 0, Op01.push 50, Op01.remove 3]).contains_index
      ((runOps01 FixedIndexVec.new
        [Op01.push 10, Op01.push 20, Op01.push 30, Op01.remove 1]).push 5).2 = true) :=
  ⟨by decide, (c1_handle_stability
      [Op01.push 10, Op01.push 20, Op01.push 30, Op01.remove 1] 5
      [Op01.push 40, Op01.remove 0, Op01.push 50, Op01.remove 3] (by decide)).1⟩

/-! ### Remove semantics (claim C4) -/

theorem remove_ppInsert_eq (s : FixedIndexVec Value) (i : Nat)
    (hc : ¬(s.values.length ≤ i ∨ (pget s.values i).is_empty = true)) :
    s.remove i = (clean_right { s with
        values := s.values.set i Pos.Empty,
        vacancies := List.orderedInsert (· ≤ ·) i s.vacancies },
      (pget s.values i).opt) := by
  simp only [FixedIndexVec.remove, if_neg hc]
  rw [ppInsert_eq_orderedInsert]

/-- C4 (amended): `remove(index)` returns `None` iff the index is out of
range or the slot is not `Occupied` (it also returns `None` on a `Reserved`
slot); the container is left unchanged iff the index is out of range or the
slot is already `Unoccupied`; on an `Occupied` slot it inserts the index into
`vacancies` at its sorted position, sets the slot `Unoccupied`, returns the
stored value and trims trailing `Unoccupied` slots; on a `Reserved` slot it
performs the same mutation but returns `None` (and the reserved counter is
not decremented, the record keeps `reserved_spaces` unchanged). -/
theorem c4_remove_semantics (s : FixedIndexVec Value) (i : Nat) :
    ((s.remove i).2 = none ↔ (s.values.length ≤ i ∨ (pget s.values i).is_used = false)) ∧
    ((s.remove i).1 = s ↔ (s.values.length ≤ i ∨ (pget s.values i).is_empty = true)) ∧
    (∀ v, pget s.values i = Pos.Used v →
      s.remove i = (clean_right { s with
          values := s.values.set i Pos.Empty,
          vacancies := List.orderedInsert (· ≤ ·) i s.vacancies }, some v)) ∧
    (pget s.values i = Pos.Reserved →
      s.remove i = (clean_right { s with
          values := s.values.set i Pos.Empty,
          vacancies := List.orderedInsert (· ≤ ·) i s.vacancies }, none)) := by
  by_cases hc : s.values.length ≤ i ∨ (pget s.values i).is_empty = true
  · have hrw : s.remove i = (s, none) := by
      simp only [FixedIndexVec.remove, if_pos hc]
    refine ⟨?_, ?_, ?_, ?_⟩
    · rw [hrw]
      simp only [true_iff]
      rcases hc with h | h
      · exact Or.inl h
      · refine Or.inr ?_
        rw [Pos.is_empty_iff.mp h]
        rfl
    · rw [hrw]
      simpa using hc
    · intro v hv
      exfalso
      rcases hc with h | h
      · rw [pget_oob h] at hv
        exact Pos.noConfusion hv
      · rw [Pos.is_empty_iff.mp h] at hv
        exact Pos.noConfusion hv
    · intro hv
      exfalso
      rcases hc with h | h
      · rw [pget_oob h] at hv
        exact Pos.noConfusion hv
      · rw [Pos.is_empty_iff.mp h] at hv
        exact Pos.noConfusion hv
  · have hlen : i < s.values.length := by
      rcases Nat.lt_or_ge i s.values.length with h1 | h1
      · exact h1
      · exact absurd (Or.inl h1) hc
    have hne : (pget s.values i).is_empty = false := by
      rcases Bool.eq_false_or_eq_true (pget s.values i).is_empty with h1 | h1
      · exact absurd (Or.inr h1) hc
      · exact h1
    have hrw := remove_ppInsert_eq s i hc
    have hchanged : (s.remove i).1 ≠ s := by
      rw [hrw]
      intro heq
      by_cases hte : trailingEmpties (s.values.set i Pos.Empty) = 0
      · rw [clean_right_eq_self _ hte] at heq
        have hv : s.values.set i Pos.Empty = s.values :=
          congrArg FixedIndexVec.values heq
        have h2 : pget (s.values.set i Pos.Empty) i = pget s.values i := by rw [hv]
        rw [pget_set_self hlen] at h2
        rw [← h2] at hne
        simp [Pos.is_empty] at hne
      · have hv : (clean_right { s with
            values := s.values.set i Pos.Empty,
            vacancies := List.orderedInsert (· ≤ ·) i s.vacancies }).values.length
            = s.values.length :=
          congrArg (fun t => t.values.length) heq
        rw [clean_right_len] at hv
        simp only [List.length_set] at hv
        have hte2 := te_le (s.values.set i Pos.Empty)
        simp only [List.length_set] at hte2
        omega
    refine ⟨?_, ?_, ?_, ?_⟩
    · rw [hrw]
      simp only
      constructor
      · intro hopt
        refine Or.inr ?_
        cases hp : pget s.values i with
        | Empty => rfl
        | Reserved => rfl
        | Used v =>
          rw [hp] at hopt
          exact Option.noConfusion hopt
      · intro h
        rcases h with h | h
        · omega
        · cases hp : pget s.values i with
          | Empty => rfl
          | Reserved => rfl
          | Used v =>
            rw [hp] at h
            simp [Pos.is_used] at h
    · constructor
      · intro h
        exact absurd h hchanged
      · intro h
        exact absurd h hc
    · intro v hv
      rw [hrw, hv]
      rfl
    · intro hv
      rw [hrw, hv]
      rfl

/-- Closed counterexample to C4 as frozen: removing a `Reserved` slot at an
in-range, not-`Unoccupied` index returns `None` yet mutates the container,
refuting both the "None iff out-of-range or Unoccupied" equivalence and the
"unchanged in that case" clause. -/
theorem c4_remove_counterexample :
    ((FixedIndexVec.new : FixedIndexVec Nat).reserve_pos.1.remove 0).2 = none ∧
    ¬((FixedIndexVec.new : FixedIndexVec Nat).reserve_pos.1.values.length ≤ 0 ∨
      (pget (FixedIndexVec.new : FixedIndexVec Nat).reserve_pos.1.values 0).is_empty = true) ∧
    ((FixedIndexVec.new : FixedIndexVec Nat).reserve_pos.1.remove 0).1 ≠
      (FixedIndexVec.new : FixedIndexVec Nat).reserve_pos.1 := by
  decide

/-- Witness for C4's amended theorem at a concrete occupied slot. -/
theorem c4_remove_semantics_witness :
    (pget ((FixedIndexVec.new : FixedIndexVec Nat).push 7).1.values 0 = Pos.Used 7) ∧
    ((FixedIndexVec.new : FixedIndexVec Nat).push 7).1.remove 0 =
      (clean_right { ((FixedIndexVec.new : FixedIndexVec Nat).push 7).1 with
          values := ((FixedIndexVec.new : FixedIndexVec Nat).push 7).1.values.set 0 Pos.Empty,
          vacancies := List.orderedInsert (· ≤ ·) 0
            ((FixedIndexVec.new : FixedIndexVec Nat).push 7).1.vacancies }, some 7) :=
  ⟨by decide, (c4_remove_semantics ((FixedIndexVec.new : FixedIndexVec Nat).push 7).1 0).2.2.1
    7 (by decide)⟩

/-! ### No trailing gaps (claim C7) -/

/-- C7 (amended): after `compress` the container never ends in an `Unoccupied`
slot, unconditionally; after `remove` the same holds provided the container
already had no trailing `Unoccupied` slot (the `remove` no-op branch returns
the container as-is, so a pre-existing trailing gap — reachable through
`remove_reserved_pos`, which vacates a slot without trimming — survives). -/
theorem c7_no_trailing_gaps (s : FixedIndexVec Value) (i : Nat) (b : Bool) :
    (lastNotEmpty s → lastNotEmpty (s.remove i).1) ∧
      lastNotEmpty (s.compress b).1 := by
  constructor
  · intro h
    by_cases hc : s.values.length ≤ i ∨ (pget s.values i).is_empty = true
    · simpa only [FixedIndexVec.remove, if_pos hc] using h
    · simp only [FixedIndexVec.remove, if_neg hc]
      exact clean_right_lastNotEmpty _
  · simp only [FixedIndexVec.compress]
    by_cases hv : (clean_right s).vacancies.isEmpty = true
    · rw [if_pos hv]
      exact clean_right_lastNotEmpty s
    · rw [if_neg hv]
      exact clean_right_lastNotEmpty _

/-- Closed counterexample to C7 as frozen: a reservation cancelled with
`remove_reserved_pos` leaves a trailing `Unoccupied` slot, and a subsequent
`remove` call on it returns with the gap still present (`len() = 1` and the
slot at `len()-1` Unoccupied). -/
theorem c7_counterexample :
    ((((FixedIndexVec.new : FixedIndexVec Nat).reserve_pos.1.remove_reserved_pos 0).1.remove 0).1.len
        = 1) ∧
    (pget (((FixedIndexVec.new : FixedIndexVec Nat).reserve_pos.1.remove_reserved_pos
        0).1.remove 0).1.values 0).is_empty = true := by
  decide

/-- Witness for C7's amended theorem on a concrete container. -/
theorem c7_no_trailing_gaps_witness :
    lastNotEmpty ((FixedIndexVec.new : FixedIndexVec Nat).push 3).1 ∧
    lastNotEmpty (((FixedIndexVec.new : FixedIndexVec Nat).push 3).1.remove 0).1 :=
  ⟨by decide,
    (c7_no_trailing_gaps ((FixedIndexVec.new : FixedIndexVec Nat).push 3).1 0 false).1
      (by decide)⟩

/-! ### Push serves the smallest vacancy (claim C6) -/

/-- C6: on a well-formed free list (ascending, in-range), `push` fills the
least vacancy when one exists — returning a member of `vacancies` that is a
lower bound of it, storing the value there as `Occupied`, without growing the
store — and otherwise appends at index `len()`, growing the store by exactly
one slot. -/
theorem c6_push_smallest (s : FixedIndexVec Value) (v : Value)
    (hpw : s.vacancies.Pairwise (· < ·))
    (hbound : ∀ j ∈ s.vacancies, j < s.values.length) :
    (s.vacancies ≠ [] →
      ((s.push v).2 ∈ s.vacancies ∧
       (∀ j ∈ s.vacancies, (s.push v).2 ≤ j) ∧
       pget (s.push v).1.values (s.push v).2 = Pos.Used v ∧
       (s.push v).1.contains_index (s.push v).2 = true ∧
       (s.push v).1.values.length = s.values.length)) ∧
    (s.vacancies = [] →
      ((s.push v).2 = s.values.length ∧
       (s.push v).1.values = s.values ++ [Pos.Used v] ∧
       (s.push v).1.values.length = s.values.length + 1)) := by
  cases hv : s.vacancies with
  | nil =>
    refine ⟨fun hne => absurd rfl hne, fun _ => ?_⟩
    simp [FixedIndexVec.push, hv]
  | cons vacant_index rest =>
    have hvi : vacant_index < s.values.length :=
      hbound vacant_index (by rw [hv]; exact List.mem_cons_self _ _)
    refine ⟨fun _ => ?_, fun he => List.noConfusion he⟩
    simp only [FixedIndexVec.push, hv]
    refine ⟨List.mem_cons_self _ _, ?_, pget_set_self hvi _, ?_, by simp⟩
    · intro j hj
      rcases List.mem_cons.mp hj with rfl | hj2
      · exact Nat.le_refl _
      · exact Nat.le_of_lt ((List.pairwise_cons.mp (hv ▸ hpw)).1 j hj2)
    · rw [FixedIndexVec.contains_index, pget_set_self hvi]
      simp [Pos.is_used, hvi]

/-- Witness for C6 at a container with vacancy set `{0}`. -/
theorem c6_push_smallest_witness :
    ((runOps01 (FixedIndexVec.new : FixedIndexVec Nat)
        [Op01.push 1, Op01.push 2, Op01.push 3, Op01.remove 2, Op01.remove 0]).vacancies.Pairwise
      (· < ·)) ∧
    ((runOps01 (FixedIndexVec.new : FixedIndexVec Nat)
        [Op01.push 1, Op01.push 2, Op01.push 3, Op01.remove 2, Op01.remove 0]).push 9).2 ∈
      (runOps01 (FixedIndexVec.new : FixedIndexVec Nat)
        [Op01.push 1, Op01.push 2, Op01.push 3, Op01.remove 2, Op01.remove 0]).vacancies :=
  ⟨by decide,
    ((c6_push_smallest (runOps01 (FixedIndexVec.new : FixedIndexVec Nat)
        [Op01.push 1, Op01.push 2, Op01.push 3, Op01.remove 2, Op01.remove 0]) 9
      (by decide) (by decide)).1 (by decide)).1⟩

/-! ### Bracket indexing is partial (claim C10) -/

theorem pget_lt {l : List (Pos Value)} {i : Nat} (h : i < l.length) :
    l[i]? = some (pget l i) := by
  rw [pget_eq, List.getElem?_eq_getElem h]
  rfl

/-- C10: the `Index`/`IndexMut` implementations are partial raw-slot reads —
in range they yield the raw `Pos` (which can be `Empty` or `Reserved`, not
only a stored value), and out of range they fault (modelled `none`), whereas
`get` and `contains_index` answer absently/falsely on the same inputs. -/
theorem c10_bracket_indexing (s : FixedIndexVec Value) (i : Nat) :
    (i < s.values.length → s.indexOp i = some (pget s.values i)) ∧
    (s.values.length ≤ i → s.indexOp i = none) ∧
    (i < s.values.length → (pget s.values i).is_used = false →
      s.indexOp i = some (pget s.values i) ∧ s.get i = none ∧
        s.contains_index i = false) := by
  refine ⟨fun h => pget_lt h, fun h => ?_, fun h hu => ?_⟩
  · rw [FixedIndexVec.indexOp]
    exact List.getElem?_eq_none h
  · have hci : s.contains_index i = false := by
      rw [FixedIndexVec.contains_index, hu]
      simp
    exact ⟨pget_lt h, by rw [FixedIndexVec.get]; simp [hci], hci⟩

/-- Witness for C10 on a container holding one `Reserved` slot. -/
theorem c10_bracket_indexing_witness :
    (0 < (FixedIndexVec.new : FixedIndexVec Nat).reserve_pos.1.values.length) ∧
    ((pget (FixedIndexVec.new : FixedIndexVec Nat).reserve_pos.1.values 0).is_used = false) ∧
    ((FixedIndexVec.new : FixedIndexVec Nat).reserve_pos.1.indexOp 0 =
        some (pget (FixedIndexVec.new : FixedIndexVec Nat).reserve_pos.1.values 0) ∧
      (FixedIndexVec.new : FixedIndexVec Nat).reserve_pos.1.get 0 = none ∧
      (FixedIndexVec.new : FixedIndexVec Nat).reserve_pos.1.contains_index 0 = false) :=
  ⟨by decide, by decide,
    (c10_bracket_indexing (FixedIndexVec.new : FixedIndexVec Nat).reserve_pos.1 0).2.2
      (by decide) (by decide)⟩

/-! ### The remove_reserved_pos slot leak (claims C2 and C3) -/

/-- C2 (code bug exhibited): cancelling a reservation with
`remove_reserved_pos` sets the slot `Unoccupied` but never returns its index
to `vacancies` — after `reserve_pos(); remove_reserved_pos(0)` from the empty
container, `len() = 1` and slot 0 is `Unoccupied`, yet `vacancies` is empty,
so `vacancies` does not equal the set of `Unoccupied` indices. -/
theorem c2_vacancies_leak :
    (((FixedIndexVec.new : FixedIndexVec Nat).reserve_pos.1.remove_reserved_pos 0).1.vacancies
        = []) ∧
    ((pget ((FixedIndexVec.new : FixedIndexVec Nat).reserve_pos.1.remove_reserved_pos
        0).1.values 0).is_empty = true) ∧
    (((FixedIndexVec.new : FixedIndexVec Nat).reserve_pos.1.remove_reserved_pos 0).1.len = 1) := by
  decide

/-- C3 (code bug exhibited): a `reserve_pos`/`remove_reserved_pos` round trip
does not restore `len()` (0 becomes 1), and a second round trip grows the
store again (1 becomes 2), contradicting "restores the same len()" and "grows
the store at most once in total" (and the source's own doc comment that
repeated reserve/cancel cycles reallocate at most once). -/
theorem c3_reservation_roundtrip_bug :
    ((FixedIndexVec.new : FixedIndexVec Nat).len = 0) ∧
    (((FixedIndexVec.new : FixedIndexVec Nat).reserve_pos.1.remove_reserved_pos 0).1.len = 1) ∧
    ((((FixedIndexVec.new : FixedIndexVec Nat).reserve_pos.1.remove_reserved_pos
        0).1.reserve_pos.1.remove_reserved_pos 1).1.len = 2) := by
  decide

/-! ### The compress cursor walk (claims C5 and C8) -/

theorem compressFindUsed_spec (W : List (Pos Value)) (vacant : Nat) :
    ∀ c, vacant < c →
      ((compressFindUsed W vacant c).2 = true →
         vacant < (compressFindUsed W vacant c).1 ∧
         (compressFindUsed W vacant c).1 ≤ c ∧
         (pget W (compressFindUsed W vacant c).1).is_empty = false ∧
         (∀ j, (compressFindUsed W vacant c).1 < j → j ≤ c →
           (pget W j).is_empty = true)) ∧
      ((compressFindUsed W vacant c).2 = false →
         (compressFindUsed W vacant c).1 = vacant ∧
         (∀ j, vacant < j → j ≤ c → (pget W j).is_empty = true)) := by
  intro c
  induction c with
  | zero => intro h; omega
  | succ c ih =>
    intro hvc
    by_cases hemp : (pget W (c + 1)).is_empty = true
    · by_cases hcv : c ≤ vacant
      · have hred : compressFindUsed W vacant (c + 1) = (c, false) := by
          simp only [FixedIndexVec.compressFindUsed, if_pos hemp, if_pos hcv]
        rw [hred]
        constructor
        · intro hbt
          exact Bool.noConfusion hbt
        · intro _
          have hc : c = vacant := by omega
          refine ⟨hc, fun j hj1 hj2 => ?_⟩
          have hj : j = c + 1 := by omega
          rw [hj]
          exact hemp
      · have hred : compressFindUsed W vacant (c + 1) = compressFindUsed W vacant c := by
          simp only [FixedIndexVec.compressFindUsed, if_pos hemp, if_neg hcv]
        rw [hred]
        have hvc2 : vacant < c := by omega
        obtain ⟨iht, ihf⟩ := ih hvc2
        constructor
        · intro hbt
          obtain ⟨a1, a2, a3, a4⟩ := iht hbt
          refine ⟨a1, by omega, a3, fun j hj1 hj2 => ?_⟩
          rcases Nat.lt_or_ge j (c + 1) with hj | hj
          · exact a4 j hj1 (by omega)
          · have hj2' : j = c + 1 := by omega
            rw [hj2']
            exact hemp
        · intro hbf
          obtain ⟨a1, a2⟩ := ihf hbf
          refine ⟨a1, fun j hj1 hj2 => ?_⟩
          rcases Nat.lt_or_ge j (c + 1) with hj | hj
          · exact a2 j hj1 (by omega)
          · have hj2' : j = c + 1 := by omega
            rw [hj2']
            exact hemp
    · have hred : compressFindUsed W vacant (c + 1) = (c + 1, true) := by
        simp only [FixedIndexVec.compressFindUsed, if_neg hemp]
      rw [hred]
      constructor
      · intro _
        have hfalse : (pget W (c + 1)).is_empty = false := by
          rcases Bool.eq_false_or_eq_true (pget W (c + 1)).is_empty with h1 | h1
          · exact absurd h1 hemp
          · exact h1
        exact ⟨hvc, Nat.le_refl _, hfalse, fun j hj1 hj2 => by omega⟩
      · intro hbf
        exact Bool.noConfusion hbf

theorem listSwap_length (l : List (Pos Value)) (a b : Nat) :
    (listSwap l a b).length = l.length := by
  simp [FixedIndexVec.listSwap]

theorem pget_listSwap_fst {l : List (Pos Value)} {a b : Nat}
    (ha : a < l.length) (hne : b ≠ a) :
    pget (listSwap l a b) a = pget l b := by
  rw [FixedIndexVec.listSwap, pget_set_ne hne, pget_set_self ha]

theorem pget_listSwap_snd {l : List (Pos Value)} {a b : Nat} (hb : b < l.length) :
    pget (listSwap l a b) b = pget l a := by
  rw [FixedIndexVec.listSwap, pget_set_self (by simpa using hb)]

theorem pget_listSwap_other {l : List (Pos Value)} {a b j : Nat}
    (h1 : j ≠ a) (h2 : j ≠ b) :
    pget (listSwap l a b) j = pget l j := by
  rw [FixedIndexVec.listSwap, pget_set_ne (fun he => h2 he.symm),
    pget_set_ne (fun he => h1 he.symm)]

theorem compressStep_inv {V W : List (Pos Value)} {rem : List Nat} {ec : Nat}
    {R : List (Nat × Nat)} {vacant : Nat}
    (h : CompressInv V W (vacant :: rem) ec R) :
    CompressInv V (compressStep true (W, ec, R) vacant).1 rem
      (compressStep true (W, ec, R) vacant).2.1
      (compressStep true (W, ec, R) vacant).2.2 := by
  have hvmem : vacant ∈ vacant :: rem := List.mem_cons_self _ _
  have hvlen : vacant < V.length := (h.rem_sub vacant hvmem).1
  have hvV : (pget V vacant).is_empty = true := (h.rem_sub vacant hvmem).2
  have hvW : (pget W vacant).is_empty = true :=
    (h.empty_iff vacant hvlen).2 (Or.inl hvmem)
  have hremgt : ∀ j ∈ rem, vacant < j := (List.pairwise_cons.mp h.rem_pw).1
  have hrem_pw : rem.Pairwise (· < ·) := (List.pairwise_cons.mp h.rem_pw).2
  have hvnotrem : vacant ∉ rem := fun hm => by
    have := hremgt vacant hm
    omega
  have news_lt_vac : ∀ p ∈ R, p.2 < vacant := fun p hp =>
    h.news_lt_rem p hp vacant hvmem
  by_cases hA : ec ≤ vacant
  · have hred : compressStep true (W, ec, R) vacant = (W, ec, R) := by
      simp only [FixedIndexVec.compressStep, if_pos hA]
    rw [hred]
    refine { len_eq := h.len_eq, ec_le := h.ec_le, tail_empty := h.tail_empty,
             empty_iff := ?_, rem_pw := hrem_pw, rem_sub := ?_,
             pairs_ok := h.pairs_ok, news_pw := h.news_pw, olds_pw := h.olds_pw,
             news_lt_rem := ?_, unchanged := h.unchanged }
    · intro j hj
      rw [h.empty_iff j hj]
      constructor
      · rintro (hm | hge)
        · rcases List.mem_cons.mp hm with rfl | hm
          · exact Or.inr hA
          · exact Or.inl hm
        · exact Or.inr hge
      · rintro (hm | hge)
        · exact Or.inl (List.mem_cons_of_mem _ hm)
        · exact Or.inr hge
    · exact fun j hj => h.rem_sub j (List.mem_cons_of_mem _ hj)
    · exact fun p hp j hj => h.news_lt_rem p hp j (List.mem_cons_of_mem _ hj)
  · have hvltec : vacant < ec := by omega
    by_cases hB : ec - 1 ≤ vacant
    · have hecv : ec - 1 = vacant := by omega
      have hred : compressStep true (W, ec, R) vacant = (W, ec - 1, R) := by
        simp only [FixedIndexVec.compressStep, if_neg hA, if_pos hB]
      rw [hred]
      show CompressInv V W rem (ec - 1) R
      rw [hecv]
      refine { len_eq := h.len_eq, ec_le := by omega, tail_empty := ?_,
               empty_iff := ?_, rem_pw := hrem_pw, rem_sub := ?_,
               pairs_ok := ?_, news_pw := h.news_pw, olds_pw := h.olds_pw,
               news_lt_rem := ?_, unchanged := ?_ }
      · intro j hj1 hj2
        rcases eq_or_ne j vacant with rfl | hne
        · exact hvW
        · exact h.tail_empty j (by omega) hj2
      · intro j hj
        constructor
        · intro he
          rcases (h.empty_iff j hj).1 he with hm | hge
          · rcases List.mem_cons.mp hm with rfl | hm
            · exact Or.inr (Nat.le_refl _)
            · exact Or.inl hm
          · exact Or.inr (by omega)
        · rintro (hm | hge)
          · exact (h.empty_iff j hj).2 (Or.inl (List.mem_cons_of_mem _ hm))
          · rcases eq_or_ne j vacant with rfl | hne
            · exact hvW
            · exact h.tail_empty j (by omega) hj
      · exact fun j hj => h.rem_sub j (List.mem_cons_of_mem _ hj)
      · intro p hp
        obtain ⟨a1, a2, a3, a4, a5, a6, a7⟩ := h.pairs_ok p hp
        exact ⟨a1, by have := news_lt_vac p hp; omega, by omega, a4, a5, a6, a7⟩
      · exact fun p hp j hj => h.news_lt_rem p hp j (List.mem_cons_of_mem _ hj)
      · intro j hj hn
        exact h.unchanged j (by omega) hn
    · have hvc3 : vacant < ec - 1 := by omega
      obtain ⟨spec_t, spec_f⟩ := compressFindUsed_spec W vacant (ec - 1) hvc3
      by_cases hfr : (compressFindUsed W vacant (ec - 1)).2 = true
      · have hred : compressStep true (W, ec, R) vacant =
            (listSwap W vacant (compressFindUsed W vacant (ec - 1)).1,
             (compressFindUsed W vacant (ec - 1)).1,
             R ++ [((compressFindUsed W vacant (ec - 1)).1, vacant)]) := by
          simp only [FixedIndexVec.compressStep, if_neg hA, if_neg hB, hfr, if_true]
        obtain ⟨b1, b2, b3, b4⟩ := spec_t hfr
        rw [hred]
        show CompressInv V (listSwap W vacant (compressFindUsed W vacant (ec - 1)).1) rem
          (compressFindUsed W vacant (ec - 1)).1
          (R ++ [((compressFindUsed W vacant (ec - 1)).1, vacant)])
        set c := (compressFindUsed W vacant (ec - 1)).1 with hc
        have hclen : c < V.length := by
          have := h.ec_le
          omega
        have hcW : pget W c = pget V c := by
          apply h.unchanged c (by omega)
          intro hm
          rcases List.mem_map.mp hm with ⟨p, hp, hpc⟩
          have := news_lt_vac p hp
          omega
        have hWlen : c < W.length := by rw [h.len_eq]; exact hclen
        have hvWlen : vacant < W.length := by rw [h.len_eq]; exact hvlen
        have hswap_c : pget (listSwap W vacant c) c = pget W vacant :=
          pget_listSwap_snd hWlen
        have hswap_v : pget (listSwap W vacant c) vacant = pget W c :=
          pget_listSwap_fst hvWlen (by omega)
        refine { len_eq := by rw [listSwap_length]; exact h.len_eq,
                 ec_le := by omega, tail_empty := ?_, empty_iff := ?_,
                 rem_pw := hrem_pw, rem_sub := ?_, pairs_ok := ?_,
                 news_pw := ?_, olds_pw := ?_, news_lt_rem := ?_,
                 unchanged := ?_ }
        · intro j hj1 hj2
          rcases eq_or_ne j c with rfl | hjc
          · rw [hswap_c]
            exact hvW
          · rw [pget_listSwap_other (by omega) hjc]
            rcases Nat.lt_or_ge j ec with hjec | hjec
            · exact b4 j (by omega) (by omega)
            · exact h.tail_empty j hjec hj2
        · intro j hj
          rcases eq_or_ne j vacant with rfl | hjv
          · rw [hswap_v]
            rw [hcW] at b3
            rw [hcW]
            constructor
            · intro he
              rw [he] at b3
              exact Bool.noConfusion b3
            · rintro (hm | hge)
              · exact absurd hm hvnotrem
              · omega
          · rcases eq_or_ne j c with rfl | hjc
            · rw [hswap_c]
              simp [hvW]
            · rw [pget_listSwap_other hjv hjc]
              constructor
              · intro he
                rcases (h.empty_iff j hj).1 he with hm | hge
                · rcases List.mem_cons.mp hm with rfl | hm
                  · exact absurd rfl hjv
                  · exact Or.inl hm
                · exact Or.inr (by omega)
              · rintro (hm | hge)
                · exact (h.empty_iff j hj).2 (Or.inl (List.mem_cons_of_mem _ hm))
                · have hgt : c < j := by omega
                  rcases Nat.lt_or_ge j ec with hjec | hjec
                  · exact b4 j hgt (by omega)
                  · exact h.tail_empty j hjec hj
        · exact fun j hj => h.rem_sub j (List.mem_cons_of_mem _ hj)
        · intro p hp
          rcases List.mem_append.mp hp with hp | hp
          · obtain ⟨a1, a2, a3, a4, a5, a6, a7⟩ := h.pairs_ok p hp
            have hlt := news_lt_vac p hp
            refine ⟨a1, by omega, by omega, a4, a5, a6, ?_⟩
            rw [pget_listSwap_other (by omega) (by omega)]
            exact a7
          · have hpe : p = (c, vacant) := by simpa using hp
            subst hpe
            rw [hcW] at b3
            refine ⟨by omega, by omega, Nat.le_refl _, hclen, b3, hvV, ?_⟩
            rw [hswap_v, hcW]
        · rw [List.map_append]
          rw [List.pairwise_append]
          refine ⟨h.news_pw, by simp, ?_⟩
          intro a ha b hb
          simp only [List.map_cons, List.map_nil, List.mem_singleton] at hb
          subst hb
          rcases List.mem_map.mp ha with ⟨p, hp, hpa⟩
          have := news_lt_vac p hp
          omega
        · rw [List.map_append]
          rw [List.pairwise_append]
          refine ⟨h.olds_pw, by simp, ?_⟩
          intro a ha b hb
          simp only [List.map_cons, List.map_nil, List.mem_singleton] at hb
          subst hb
          rcases List.mem_map.mp ha with ⟨p, hp, hpa⟩
          obtain ⟨_, _, a3, _, _, _, _⟩ := h.pairs_ok p hp
          have : ec ≤ a := hpa ▸ a3
          omega
        · intro p hp j hj
          rcases List.mem_append.mp hp with hp | hp
          · have := news_lt_vac p hp
            have := hremgt j hj
            omega
          · have hpe : p = (c, vacant) := by simpa using hp
            subst hpe
            exact hremgt j hj
        · intro j hj hn
          rw [List.map_append] at hn
          have hjv : j ≠ vacant := fun he => hn (by
            rw [he]
            exact List.mem_append.mpr (Or.inr (by simp)))
          have hjc : j ≠ c := by omega
          rw [pget_listSwap_other hjv hjc]
          exact h.unchanged j (by omega) (fun hm => hn (List.mem_append.mpr (Or.inl hm)))
      · have hfr2 : (compressFindUsed W vacant (ec - 1)).2 = false := by
          rcases Bool.eq_false_or_eq_true (compressFindUsed W vacant (ec - 1)).2 with h1 | h1
          · exact absurd h1 hfr
          · exact h1
        obtain ⟨b1, b2⟩ := spec_f hfr2
        have hred : compressStep true (W, ec, R) vacant =
            (W, (compressFindUsed W vacant (ec - 1)).1, R) := by
          simp only [FixedIndexVec.compressStep, if_neg hA, if_neg hB, hfr2]
          simp
        rw [hred]
        show CompressInv V W rem (compressFindUsed W vacant (ec - 1)).1 R
        rw [b1]
        refine { len_eq := h.len_eq, ec_le := by omega, tail_empty := ?_,
                 empty_iff := ?_, rem_pw := hrem_pw, rem_sub := ?_,
                 pairs_ok := ?_, news_pw := h.news_pw, olds_pw := h.olds_pw,
                 news_lt_rem := ?_, unchanged := ?_ }
        · intro j hj1 hj2
          rcases eq_or_ne j vacant with rfl | hne
          · exact hvW
          · rcases Nat.lt_or_ge j ec with hjec | hjec
            · exact b2 j (by omega) (by omega)
            · exact h.tail_empty j hjec hj2
        · intro j hj
          constructor
          · intro he
            rcases (h.empty_iff j hj).1 he with hm | hge
            · rcases List.mem_cons.mp hm with rfl | hm
              · exact Or.inr (Nat.le_refl _)
              · exact Or.inl hm
            · exact Or.inr (by omega)
          · rintro (hm | hge)
            · exact (h.empty_iff j hj).2 (Or.inl (List.mem_cons_of_mem _ hm))
            · rcases eq_or_ne j vacant with rfl | hne
              · exact hvW
              · rcases Nat.lt_or_ge j ec with hjec | hjec
                · exact b2 j (by omega) (by omega)
                · exact h.tail_empty j hjec hj
        · exact fun j hj => h.rem_sub j (List.mem_cons_of_mem _ hj)
        · intro p hp
          obtain ⟨a1, a2, a3, a4, a5, a6, a7⟩ := h.pairs_ok p hp
          have := news_lt_vac p hp
          exact ⟨a1, by omega, by omega, a4, a5, a6, a7⟩
        · exact fun p hp j hj => h.news_lt_rem p hp j (List.mem_cons_of_mem _ hj)
        · intro j hj hn
          exact h.unchanged j (by omega) hn

theorem compressFold_inv {V : List (Pos Value)} :
    ∀ (rem : List Nat) (st : List (Pos Value) × Nat × List (Nat × Nat)),
      CompressInv V st.1 rem st.2.1 st.2.2 →
      CompressInv V (rem.foldl (compressStep true) st).1 []
        (rem.foldl (compressStep true) st).2.1
        (rem.foldl (compressStep true) st).2.2 := by
  intro rem
  induction rem with
  | nil => intro st h; exact h
  | cons vacant rest ih =>
    intro st h
    rw [List.foldl_cons]
    exact ih _ (compressStep_inv h)

theorem compressStep_state (b : Bool) (W : List (Pos Value)) (ec : Nat)
    (R R' : List (Nat × Nat)) (vacant : Nat) :
    (compressStep b (W, ec, R) vacant).1 = (compressStep true (W, ec, R') vacant).1 ∧
    (compressStep b (W, ec, R) vacant).2.1 = (compressStep true (W, ec, R') vacant).2.1 := by
  simp only [FixedIndexVec.compressStep]
  by_cases h1 : ec ≤ vacant
  · simp [h1]
  · by_cases h2 : ec - 1 ≤ vacant
    · simp [h1, h2]
    · by_cases h3 : (compressFindUsed W vacant (ec - 1)).2
      · simp [h1, h2, h3]
      · simp [h1, h2, h3]


theorem compressFold_state (b : Bool) :
    ∀ (rem : List Nat) (st1 st2 : List (Pos Value) × Nat × List (Nat × Nat)),
      st1.1 = st2.1 → st1.2.1 = st2.2.1 →
      (rem.foldl (compressStep b) st1).1 = (rem.foldl (compressStep true) st2).1 ∧
      (rem.foldl (compressStep b) st1).2.1 = (rem.foldl (compressStep true) st2).2.1 := by
  intro rem
  induction rem with
  | nil => intro st1 st2 h1 h2; exact ⟨h1, h2⟩
  | cons vacant rest ih =>
    intro st1 st2 h1 h2
    rw [List.foldl_cons, List.foldl_cons]
    have hst : (st1.1, st1.2.1, st2.2.2) = st2 := by
      rw [h1, h2]
    obtain ⟨e1, e2⟩ := compressStep_state b st1.1 st1.2.1 st1.2.2 st2.2.2 vacant
    rw [hst] at e1 e2
    exact ih _ _ e1 e2

theorem compress_fst_eq (s : FixedIndexVec Value) (b : Bool) :
    (s.compress b).1 = (s.compress true).1 := by
  simp only [FixedIndexVec.compress]
  by_cases hv : (clean_right s).vacancies.isEmpty = true
  · rw [if_pos hv, if_pos hv]
  · rw [if_neg hv, if_neg hv]
    obtain ⟨e1, _⟩ := compressFold_state b (clean_right s).vacancies
      ((clean_right s).values, (clean_right s).values.length, [])
      ((clean_right s).values, (clean_right s).values.length, []) rfl rfl
    rw [e1]

theorem clean_right_take_form (W : List (Pos Value)) (r ec : Nat)
    (hle : ec ≤ W.length)
    (hemp : ∀ j, ec ≤ j → j < W.length → (pget W j).is_empty = true)
    (hbound : ec = 0 ∨ (pget W (ec - 1)).is_empty = false) :
    clean_right (⟨W, [], r⟩ : FixedIndexVec Value) = ⟨W.take ec, [], r⟩ := by
  have hte : trailingEmpties W = W.length - ec := te_eq_of hle hemp hbound
  have h1 : (clean_right (⟨W, [], r⟩ : FixedIndexVec Value)).values = W.take ec := by
    rw [clean_right_values]
    show W.take (W.length - trailingEmpties W) = W.take ec
    rw [hte]
    congr 1
    omega
  have h2 : (clean_right (⟨W, [], r⟩ : FixedIndexVec Value)).vacancies = [] := by
    by_cases h0 : trailingEmpties W = 0
    · rw [clean_right_vacancies_zero _ h0]
    · rw [clean_right_vacancies_pos _ h0]
      rfl
  have h3 : (clean_right (⟨W, [], r⟩ : FixedIndexVec Value)).reserved_spaces = r :=
    clean_right_reserved _
  calc clean_right (⟨W, [], r⟩ : FixedIndexVec Value)
      = ⟨(clean_right (⟨W, [], r⟩ : FixedIndexVec Value)).values,
         (clean_right (⟨W, [], r⟩ : FixedIndexVec Value)).vacancies,
         (clean_right (⟨W, [], r⟩ : FixedIndexVec Value)).reserved_spaces⟩ := rfl
    _ = ⟨W.take ec, [], r⟩ := by rw [h1, h2, h3]

theorem compressInv_init {t : FixedIndexVec Value} (h : FreeListInv t) :
    CompressInv t.values t.values t.vacancies t.values.length [] := by
  obtain ⟨hpw, hmem1, hmem2⟩ := h
  refine { len_eq := rfl, ec_le := Nat.le_refl _,
           tail_empty := fun j hj1 hj2 => by omega,
           empty_iff := fun j hj => ?_,
           rem_pw := hpw,
           rem_sub := fun j hj => hmem1 j hj,
           pairs_ok := by simp, news_pw := by simp, olds_pw := by simp,
           news_lt_rem := by simp, unchanged := fun j _ _ => rfl }
  constructor
  · intro he
    exact Or.inl (hmem2 j hj he)
  · rintro (hm | hge)
    · exact (hmem1 j hm).2
    · omega

theorem compress_true_spec (s : FixedIndexVec Value) (h : FreeListInv s) :
    ∃ W ec R,
      CompressInv (clean_right s).values W [] ec R ∧
      s.compress true = (⟨W.take ec, [], (clean_right s).reserved_spaces⟩, R) := by
  have hc : FreeListInv (clean_right s) := h.clean_right
  by_cases hv : (clean_right s).vacancies.isEmpty = true
  · have hveq : (clean_right s).vacancies = [] := List.isEmpty_iff.mp hv
    refine ⟨(clean_right s).values, (clean_right s).values.length, [], ?_, ?_⟩
    · have hinit := compressInv_init hc
      rwa [hveq] at hinit
    · simp only [FixedIndexVec.compress, if_pos hv]
      rw [List.take_of_length_le (Nat.le_refl _), ← hveq]
  · refine ⟨((clean_right s).vacancies.foldl (compressStep true)
        ((clean_right s).values, (clean_right s).values.length, [])).1,
      ((clean_right s).vacancies.foldl (compressStep true)
        ((clean_right s).values, (clean_right s).values.length, [])).2.1,
      ((clean_right s).vacancies.foldl (compressStep true)
        ((clean_right s).values, (clean_right s).values.length, [])).2.2, ?_, ?_⟩
    · exact compressFold_inv _ _ (compressInv_init hc)
    · have hfold := compressFold_inv _
        ((clean_right s).values, (clean_right s).values.length, [])
        (compressInv_init hc)
      simp only [FixedIndexVec.compress, if_neg hv]
      have hW := hfold.len_eq
      have hecle := hfold.ec_le
      have hbound : ((clean_right s).vacancies.foldl (compressStep true)
          ((clean_right s).values, (clean_right s).values.length, [])).2.1 = 0 ∨
          (pget (((clean_right s).vacancies.foldl (compressStep true)
            ((clean_right s).values, (clean_right s).values.length, [])).1)
            ((((clean_right s).vacancies.foldl (compressStep true)
              ((clean_right s).values, (clean_right s).values.length, [])).2.1)
              - 1)).is_empty = false := by
        rcases Nat.eq_zero_or_pos ((clean_right s).vacancies.foldl (compressStep true)
            ((clean_right s).values, (clean_right s).values.length, [])).2.1 with hz | hp
        · exact Or.inl hz
        · refine Or.inr ?_
          have hlt : (((clean_right s).vacancies.foldl (compressStep true)
              ((clean_right s).values, (clean_right s).values.length, [])).2.1 - 1)
              < (clean_right s).values.length := by omega
          have hiff := hfold.empty_iff _ hlt
          rcases Bool.eq_false_or_eq_true (pget (((clean_right s).vacancies.foldl
              (compressStep true) ((clean_right s).values,
                (clean_right s).values.length, [])).1)
              ((((clean_right s).vacancies.foldl (compressStep true)
                ((clean_right s).values, (clean_right s).values.length, [])).2.1)
                - 1)).is_empty with h1 | h1
          · rcases hiff.1 h1 with hm | hge
            · simp at hm
            · omega
          · exact h1
      have hform := clean_right_take_form
        (((clean_right s).vacancies.foldl (compressStep true)
          ((clean_right s).values, (clean_right s).values.length, [])).1)
        ((clean_right s).reserved_spaces)
        (((clean_right s).vacancies.foldl (compressStep true)
          ((clean_right s).values, (clean_right s).values.length, [])).2.1)
        (by omega)
        (fun j hj1 hj2 => hfold.tail_empty j hj1 (by omega))
        hbound
      rw [hform]

theorem clean_right_pget_all (s : FixedIndexVec Value) :
    ∀ j < (clean_right s).values.length,
      pget (clean_right s).values j = pget s.values j := by
  intro j hj
  rw [clean_right_len] at hj
  exact clean_right_pget s hj

/-- C5 (amended): on a container satisfying the free-list invariant,
`compress` never grows the store; it removes every `Unoccupied` slot; with
`save_results = true` the report's `new` indexes are exactly (bijectively)
the surviving positions whose content changed, each `new` was `Unoccupied`
before the call, and each `old` was a non-`Unoccupied` slot — `Occupied` or
`Reserved`, the code moves `Reserved` slots too — that lies at or beyond the
new length afterwards; the pair count equals the number of changed surviving
positions, i.e. the number of value moves performed. -/
theorem c5_compress_spec {Value : Type} [DecidableEq Value]
    (s : FixedIndexVec Value) (b : Bool) (h : FreeListInv s) :
    ((s.compress b).1.values.length ≤ s.values.length) ∧
    (∀ j < (s.compress b).1.values.length,
        (pget (s.compress b).1.values j).is_empty = false) ∧
    (∀ j < (s.compress true).1.values.length,
        (pget (s.compress true).1.values j ≠ pget s.values j ↔
          j ∈ (s.compress true).2.map Prod.snd)) ∧
    (((s.compress true).2.map Prod.snd).Pairwise (· < ·)) ∧
    (∀ p ∈ (s.compress true).2,
        p.2 < s.values.length ∧ (pget s.values p.2).is_empty = true) ∧
    (∀ p ∈ (s.compress true).2,
        p.1 < s.values.length ∧ (pget s.values p.1).is_empty = false ∧
        (s.compress true).1.values.length ≤ p.1) ∧
    ((s.compress true).2.length =
      ((List.range (s.compress true).1.values.length).filter
        (fun j => decide (pget (s.compress true).1.values j ≠ pget s.values j))).length) := by
  obtain ⟨W, ec, R, hinv, heq⟩ := compress_true_spec s h
  have hval : (s.compress true).1.values = W.take ec := by rw [heq]
  have hrep : (s.compress true).2 = R := by rw [heq]
  have hvalb : (s.compress b).1.values = W.take ec := by
    rw [compress_fst_eq s b, hval]
  have hWlen := hinv.len_eq
  have hecle := hinv.ec_le
  have hVlen : (clean_right s).values.length ≤ s.values.length := clean_right_len_le s
  have htake_len : (W.take ec).length = ec := by
    rw [List.length_take]
    omega
  have hVget := clean_right_pget_all s
  have hnews_lt : ∀ p ∈ R, p.2 < ec := fun p hp => (hinv.pairs_ok p hp).2.1
  have hiff : ∀ j < ec, (pget (W.take ec) j ≠ pget s.values j ↔ j ∈ R.map Prod.snd) := by
    intro j hj
    rw [pget_take hj]
    have hsj : pget s.values j = pget (clean_right s).values j := (hVget j (by omega)).symm
    rw [hsj]
    constructor
    · intro hne
      by_contra hnm
      exact hne (hinv.unchanged j hj hnm)
    · intro hm
      rcases List.mem_map.mp hm with ⟨p, hp, hpj⟩
      obtain ⟨_, _, _, _, a5, a6, a7⟩ := hinv.pairs_ok p hp
      intro heq2
      rw [← hpj, a7] at heq2
      rw [← heq2] at a6
      rw [a6] at a5
      exact Bool.noConfusion a5
  refine ⟨?_, ?_, ?_, hrep ▸ hinv.news_pw, ?_, ?_, ?_⟩
  · rw [hvalb, htake_len]
    omega
  · intro j hj
    rw [hvalb, htake_len] at hj
    rw [hvalb, pget_take hj]
    rcases Bool.eq_false_or_eq_true (pget W j).is_empty with h1 | h1
    · rcases (hinv.empty_iff j (by omega)).1 h1 with hm | hge
      · simp at hm
      · omega
    · exact h1
  · intro j hj
    rw [hval, htake_len] at hj
    rw [hval, hrep]
    exact hiff j hj
  · intro p hp
    rw [hrep] at hp
    obtain ⟨a1, a2, a3, a4, a5, a6, a7⟩ := hinv.pairs_ok p hp
    have hplen : p.2 < (clean_right s).values.length := by omega
    refine ⟨by omega, ?_⟩
    rw [← hVget p.2 hplen]
    exact a6
  · intro p hp
    rw [hrep] at hp
    obtain ⟨a1, a2, a3, a4, a5, a6, a7⟩ := hinv.pairs_ok p hp
    refine ⟨by omega, ?_, by rw [hval, htake_len]; omega⟩
    rw [← hVget p.1 a4]
    exact a5
  · rw [hrep, hval, htake_len]
    have hnd1 : (R.map Prod.snd).Nodup :=
      hinv.news_pw.imp (fun hab => Nat.ne_of_lt hab)
    have hnd2 : (((List.range ec).filter
        (fun j => decide (pget (W.take ec) j ≠ pget s.values j)))).Nodup :=
      (List.nodup_range ec).filter _
    have hmemiff : ∀ a, a ∈ (List.range ec).filter
        (fun j => decide (pget (W.take ec) j ≠ pget s.values j)) ↔
        a ∈ R.map Prod.snd := by
      intro a
      rw [List.mem_filter, List.mem_range]
      constructor
      · rintro ⟨ha, hd⟩
        exact (hiff a ha).1 (of_decide_eq_true hd)
      · intro hm
        rcases List.mem_map.mp hm with ⟨p, hp, hpj⟩
        have ha : a < ec := hpj ▸ hnews_lt p hp
        exact ⟨ha, decide_eq_true ((hiff a ha).2 hm)⟩
    have hperm := (List.perm_ext_iff_of_nodup hnd2 hnd1).mpr hmemiff
    rw [hperm.length_eq, List.length_map]

/-- Closed counterexample to C5 as frozen, at two reachable container states:
(i) after `reserve_pos; reserve_pos; remove_reserved_pos 0; push_reserved 1 7`
the slot leak leaves slot 0 `Unoccupied` with no matching vacancy, and
`compress` does not remove it; (ii) after `push 7; reserve_pos; remove 0`,
`compress(true)` reports the pair `(1, 0)` whose `old` index 1 held a
`Reserved` slot — not an `Occupied` one — before the call. -/
theorem c5_compress_counterexample :
    ((pget (((((FixedIndexVec.new : FixedIndexVec Nat).reserve_pos.1.reserve_pos.1.remove_reserved_pos
          0).1.push_reserved 1 7).1.compress true).1.values) 0).is_empty = true ∧
      0 < ((((FixedIndexVec.new : FixedIndexVec Nat).reserve_pos.1.reserve_pos.1.remove_reserved_pos
          0).1.push_reserved 1 7).1.compress true).1.values.length) ∧
    (((((FixedIndexVec.new : FixedIndexVec Nat).push 7).1.reserve_pos.1.remove 0).1.compress
        true).2 = [(1, 0)] ∧
      (pget ((((FixedIndexVec.new : FixedIndexVec Nat).push 7).1.reserve_pos.1.remove
        0).1.values) 1).is_reserved = true) := by
  decide

/-- Witness for C5's amended theorem at a concrete fragmented container. -/
theorem c5_compress_spec_witness :
    FreeListInv (runOps01 (FixedIndexVec.new : FixedIndexVec Nat)
      [Op01.push 1, Op01.push 2, Op01.push 3, Op01.push 4, Op01.push 5,
       Op01.remove 1, Op01.remove 3]) ∧
    ((runOps01 (FixedIndexVec.new : FixedIndexVec Nat)
      [Op01.push 1, Op01.push 2, Op01.push 3, Op01.push 4, Op01.push 5,
       Op01.remove 1, Op01.remove 3]).compress false).1.values.length ≤
      (runOps01 (FixedIndexVec.new : FixedIndexVec Nat)
        [Op01.push 1, Op01.push 2, Op01.push 3, Op01.push 4, Op01.push 5,
         Op01.remove 1, Op01.remove 3]).values.length :=
  ⟨by decide,
    (c5_compress_spec (runOps01 (FixedIndexVec.new : FixedIndexVec Nat)
      [Op01.push 1, Op01.push 2, Op01.push 3, Op01.push 4, Op01.push 5,
       Op01.remove 1, Op01.remove 3]) false (by decide)).1⟩

/-! ### update_old_indexes (claim C8) -/

theorem updElem_eq {r : List (Nat × Nat)} {p : Nat × Nat}
    (hinj : ∀ q1 ∈ r, ∀ q2 ∈ r, q1.1 = q2.1 → q1 = q2) (hp : p ∈ r) :
    update_old_indexes r [p.1] = [p.2] := by
  have hmem : p ∈ r.filter (fun changed => decide (p.1 = changed.1)) :=
    List.mem_filter.mpr ⟨hp, by simp⟩
  cases hf : r.filter (fun changed => decide (p.1 = changed.1)) with
  | nil =>
    rw [hf] at hmem
    simp at hmem
  | cons q t =>
    have hq : q ∈ r.filter (fun changed => decide (p.1 = changed.1)) :=
      hf ▸ List.mem_cons_self q t
    obtain ⟨hqr, hqe⟩ := List.mem_filter.mp hq
    have hqp : q = p := hinj q hqr p hp (of_decide_eq_true hqe).symm
    simp only [update_old_indexes, List.map_cons, List.map_nil, hf,
      List.head?_cons]
    rw [hqp]

theorem updElem_skip {r : List (Nat × Nat)} {x : Nat}
    (hx : ∀ p ∈ r, p.1 ≠ x) :
    update_old_indexes r [x] = [x] := by
  have hf : r.filter (fun changed => decide (x = changed.1)) = [] := by
    rw [List.filter_eq_nil_iff]
    intro p hp
    simp only [decide_eq_true_eq]
    exact fun he => hx p hp he.symm
  simp only [update_old_indexes, List.map_cons, List.map_nil, hf, List.head?_nil]

theorem upd_idem {r : List (Nat × Nat)}
    (_hinj : ∀ q1 ∈ r, ∀ q2 ∈ r, q1.1 = q2.1 → q1 = q2)
    (hlt : ∀ p ∈ r, ∀ q ∈ r, p.2 < q.1) :
    ∀ xs : List Nat,
      update_old_indexes r (update_old_indexes r xs) = update_old_indexes r xs := by
  intro xs
  induction xs with
  | nil => rfl
  | cons x rest ih =>
    show update_old_indexes r (update_old_indexes r (x :: rest)) = _
    simp only [update_old_indexes, List.map_cons] at *
    refine congrArg₂ _ ?_ (by simpa [update_old_indexes] using ih)
    cases hf : r.filter (fun changed => decide (x = changed.1)) with
    | nil =>
      simp only [hf, List.head?_nil]
    | cons q t =>
      simp only [hf, List.head?_cons]
      have hq : q ∈ r.filter (fun changed => decide (x = changed.1)) :=
        hf ▸ List.mem_cons_self q t
      obtain ⟨hqr, _⟩ := List.mem_filter.mp hq
      have hfq : r.filter (fun changed => decide (q.2 = changed.1)) = [] := by
        rw [List.filter_eq_nil_iff]
        intro p hp
        simp only [decide_eq_true_eq]
        intro he
        have := hlt q hqr p hp
        omega
      simp only [hfq, List.head?_nil]

/-- C8: for a compress(true) report from a container satisfying the free-list
invariant, `update_old_indexes` replaces each held index equal to some
`old_index` with its (unique) paired `new_index`, leaves every index not
occurring as an `old_index` unchanged, and applying it a second time to the
already-updated collection changes nothing (no `new_index` of a report ever
coincides with any `old_index` of the same report). -/
theorem c8_update_handles (s : FixedIndexVec Value) (h : FreeListInv s) :
    (∀ xs : List Nat,
      update_old_indexes (s.compress true).2
          (update_old_indexes (s.compress true).2 xs) =
        update_old_indexes (s.compress true).2 xs) ∧
    (∀ p ∈ (s.compress true).2,
      update_old_indexes (s.compress true).2 [p.1] = [p.2]) ∧
    (∀ x : Nat, (∀ p ∈ (s.compress true).2, p.1 ≠ x) →
      update_old_indexes (s.compress true).2 [x] = [x]) := by
  obtain ⟨W, ec, R, hinv, heq⟩ := compress_true_spec s h
  have hrep : (s.compress true).2 = R := by rw [heq]
  rw [hrep]
  have hndf : (R.map Prod.fst).Nodup :=
    hinv.olds_pw.imp (fun hab => Nat.ne_of_gt hab)
  have hinj : ∀ q1 ∈ R, ∀ q2 ∈ R, q1.1 = q2.1 → q1 = q2 := by
    intro q1 hq1 q2 hq2 he
    exact List.inj_on_of_nodup_map hndf hq1 hq2 he
  have hlt : ∀ p ∈ R, ∀ q ∈ R, p.2 < q.1 := by
    intro p hp q hq
    have h1 := (hinv.pairs_ok p hp).2.1
    have h2 := (hinv.pairs_ok q hq).2.2.1
    omega
  exact ⟨upd_idem hinj hlt, fun p hp => updElem_eq hinj hp,
    fun x hx => updElem_skip hx⟩

/-- Witness for C8 at a concrete fragmented container and held-index list. -/
theorem c8_update_handles_witness :
    FreeListInv (runOps01 (FixedIndexVec.new : FixedIndexVec Nat)
      [Op01.push 1, Op01.push 2, Op01.push 3, Op01.push 4, Op01.push 5,
       Op01.remove 1, Op01.remove 3]) ∧
    update_old_indexes ((runOps01 (FixedIndexVec.new : FixedIndexVec Nat)
        [Op01.push 1, Op01.push 2, Op01.push 3, Op01.push 4, Op01.push 5,
         Op01.remove 1, Op01.remove 3]).compress true).2
      (update_old_indexes ((runOps01 (FixedIndexVec.new : FixedIndexVec Nat)
        [Op01.push 1, Op01.push 2, Op01.push 3, Op01.push 4, Op01.push 5,
         Op01.remove 1, Op01.remove 3]).compress true).2 [0, 4, 2, 100]) =
    update_old_indexes ((runOps01 (FixedIndexVec.new : FixedIndexVec Nat)
        [Op01.push 1, Op01.push 2, Op01.push 3, Op01.push 4, Op01.push 5,
         Op01.remove 1, Op01.remove 3]).compress true).2 [0, 4, 2, 100] :=
  ⟨by decide,
    (c8_update_handles (runOps01 (FixedIndexVec.new : FixedIndexVec Nat)
      [Op01.push 1, Op01.push 2, Op01.push 3, Op01.push 4, Op01.push 5,
       Op01.remove 1, Op01.remove 3]) (by decide)).1 [0, 4, 2, 100]⟩

/-! ### The internal duplicate implementation (claim C9) -/

theorem ofInternal_is_empty (p : Internal.Pos Value) :
    (Pos.ofInternal p).is_empty = p.is_empty := by
  cases p <;> rfl

theorem ofInternal_is_used (p : Internal.Pos Value) :
    (Pos.ofInternal p).is_used = p.is_used := by
  cases p <;> rfl

theorem ofInternal_is_reserved (p : Internal.Pos Value) :
    (Pos.ofInternal p).is_reserved = p.is_reserved := by
  cases p <;> rfl

theorem ofInternal_opt (p : Internal.Pos Value) :
    (Pos.ofInternal p).opt = p.opt := by
  cases p <;> rfl

theorem is_empty_comp_ofInternal :
    Pos.is_empty ∘ (Pos.ofInternal : Internal.Pos Value → Pos Value)
      = Internal.Pos.is_empty := by
  funext p
  cases p <;> rfl

theorem pget_map (l : List (Internal.Pos Value)) (i : Nat) :
    pget (l.map Pos.ofInternal) i = Pos.ofInternal (Internal.pget l i) := by
  rw [pget_eq]
  rw [show Internal.pget l i = (l[i]?).getD Internal.Pos.Empty by
    simp [Internal.pget]]
  cases h : l[i]? with
  | none => simp [h]; rfl
  | some a => simp [h]

theorem swapRemove_map (l : List (Internal.Pos Value)) (i : Nat) :
    swapRemove (l.map Pos.ofInternal) i = (swapRemove l i).map Pos.ofInternal := by
  rw [swapRemove, swapRemove, List.getLast?_map]
  cases l.getLast? with
  | none => rfl
  | some a =>
    show ((l.map Pos.ofInternal).set i (Pos.ofInternal a)).dropLast
      = ((l.set i a).dropLast).map Pos.ofInternal
    rw [← List.map_set, List.map_dropLast]

theorem te_map (l : List (Internal.Pos Value)) :
    trailingEmpties (l.map Pos.ofInternal) = Internal.FixedIndexVec.trailingEmpties l := by
  rw [FixedIndexVec.trailingEmpties, Internal.FixedIndexVec.trailingEmpties]
  rw [← List.map_reverse, List.takeWhile_map, is_empty_comp_ofInternal, List.length_map]

theorem iterate_swapRemove_map (i : Nat) :
    ∀ (k : Nat) (l : List (Internal.Pos Value)),
      ((fun t => swapRemove t i)^[k]) (l.map Pos.ofInternal) =
        (((fun t => swapRemove t i)^[k]) l).map Pos.ofInternal := by
  intro k
  induction k with
  | zero => intro l; rfl
  | succ k ih =>
    intro l
    rw [Function.iterate_succ_apply, Function.iterate_succ_apply]
    rw [show swapRemove (l.map Pos.ofInternal) i = (swapRemove l i).map Pos.ofInternal from
      swapRemove_map l i]
    exact ih (swapRemove l i)

theorem clean_right_map (s : Internal.FixedIndexVec Value) :
    clean_right (FixedIndexVec.ofInternal s) =
      FixedIndexVec.ofInternal (Internal.FixedIndexVec.clean_right s) := by
  have hte : trailingEmpties (s.values.map Pos.ofInternal) =
      Internal.FixedIndexVec.trailingEmpties s.values := te_map s.values
  by_cases h0 : Internal.FixedIndexVec.trailingEmpties s.values = 0
  · simp only [FixedIndexVec.clean_right, Internal.FixedIndexVec.clean_right,
      FixedIndexVec.ofInternal, hte, h0, if_true]
  · simp only [FixedIndexVec.clean_right, Internal.FixedIndexVec.clean_right,
      FixedIndexVec.ofInternal, hte, if_neg h0]
    simp only [FixedIndexVec.mk.injEq, List.length_map]
    exact ⟨iterate_swapRemove_map _ _ s.values, trivial, trivial⟩

theorem listSwap_map (l : List (Internal.Pos Value)) (a b : Nat) :
    listSwap (l.map Pos.ofInternal) a b =
      (Internal.FixedIndexVec.listSwap l a b).map Pos.ofInternal := by
  rw [FixedIndexVec.listSwap, Internal.FixedIndexVec.listSwap]
  rw [pget_map, pget_map]
  simp [List.map_set]

theorem compressFindUsed_map (l : List (Internal.Pos Value)) (vacant : Nat) :
    ∀ c, compressFindUsed (l.map Pos.ofInternal) vacant c =
      Internal.FixedIndexVec.compressFindUsed l vacant c := by
  intro c
  induction c with
  | zero =>
    rw [FixedIndexVec.compressFindUsed, Internal.FixedIndexVec.compressFindUsed]
    rw [pget_map, ofInternal_is_empty]
  | succ c ih =>
    rw [FixedIndexVec.compressFindUsed, Internal.FixedIndexVec.compressFindUsed]
    rw [pget_map, ofInternal_is_empty]
    by_cases he : (Internal.pget l (c + 1)).is_empty = true
    · rw [if_pos he, if_pos he]
      by_cases hc : c ≤ vacant
      · rw [if_pos hc, if_pos hc]
      · rw [if_neg hc, if_neg hc]
        exact ih
    · rw [if_neg he, if_neg he]

theorem compressStep_map (b : Bool) (W : List (Internal.Pos Value)) (ec : Nat)
    (R : List (Nat × Nat)) (v : Nat) :
    compressStep b (W.map Pos.ofInternal, ec, R) v =
      ((Internal.FixedIndexVec.compressStep b (W, ec, R) v).1.map Pos.ofInternal,
       (Internal.FixedIndexVec.compressStep b (W, ec, R) v).2.1,
       (Internal.FixedIndexVec.compressStep b (W, ec, R) v).2.2) := by
  rw [FixedIndexVec.compressStep, Internal.FixedIndexVec.compressStep]
  by_cases h1 : ec ≤ v
  · rw [if_pos h1, if_pos h1]
  · rw [if_neg h1, if_neg h1]
    by_cases h2 : ec - 1 ≤ v
    · rw [if_pos h2, if_pos h2]
    · rw [if_neg h2, if_neg h2]
      rw [compressFindUsed_map]
      by_cases h3 : (Internal.FixedIndexVec.compressFindUsed W v (ec - 1)).2 = true
      · rw [if_pos h3, if_pos h3]
        rw [listSwap_map]
      · rw [if_neg h3, if_neg h3]

theorem compressFold_map (b : Bool) :
    ∀ (rem : List Nat) (W : List (Internal.Pos Value)) (ec : Nat)
      (R : List (Nat × Nat)),
      rem.foldl (compressStep b) (W.map Pos.ofInternal, ec, R) =
        ((rem.foldl (Internal.FixedIndexVec.compressStep b) (W, ec, R)).1.map
          Pos.ofInternal,
        (rem.foldl (Internal.FixedIndexVec.compressStep b) (W, ec, R)).2.1,
        (rem.foldl (Internal.FixedIndexVec.compressStep b) (W, ec, R)).2.2) := by
  intro rem
  induction rem with
  | nil => intro W ec R; rfl
  | cons v rest ih =>
    intro W ec R
    rw [List.foldl_cons, List.foldl_cons, compressStep_map]
    exact ih _ _ _

theorem push_map (s : Internal.FixedIndexVec Value) (v : Value) :
    (FixedIndexVec.ofInternal s).push v =
      (FixedIndexVec.ofInternal (s.push v).1, (s.push v).2) := by
  cases hv : s.vacancies with
  | nil =>
    simp [FixedIndexVec.push, Internal.FixedIndexVec.push, FixedIndexVec.ofInternal, hv,
      Pos.ofInternal]
  | cons j rest =>
    simp [FixedIndexVec.push, Internal.FixedIndexVec.push, FixedIndexVec.ofInternal, hv,
      List.map_set, Pos.ofInternal]

theorem reserve_pos_map (s : Internal.FixedIndexVec Value) :
    (FixedIndexVec.ofInternal s).reserve_pos =
      (FixedIndexVec.ofInternal s.reserve_pos.1, s.reserve_pos.2) := by
  cases hv : s.vacancies with
  | nil =>
    simp [FixedIndexVec.reserve_pos, Internal.FixedIndexVec.reserve_pos,
      FixedIndexVec.ofInternal, hv, Pos.ofInternal]
  | cons j rest =>
    simp [FixedIndexVec.reserve_pos, Internal.FixedIndexVec.reserve_pos,
      FixedIndexVec.ofInternal, hv, List.map_set, Pos.ofInternal]

theorem remove_map (s : Internal.FixedIndexVec Value) (i : Nat) :
    (FixedIndexVec.ofInternal s).remove i =
      (FixedIndexVec.ofInternal (s.remove i).1, (s.remove i).2) := by
  have hcond : (s.values.length ≤ i ∨ (Internal.pget s.values i).is_empty = true) ↔
      ((FixedIndexVec.ofInternal s).values.length ≤ i ∨
        (pget (FixedIndexVec.ofInternal s).values i).is_empty = true) := by
    simp [FixedIndexVec.ofInternal, pget_map, ofInternal_is_empty]
  by_cases hc : s.values.length ≤ i ∨ (Internal.pget s.values i).is_empty = true
  · rw [FixedIndexVec.remove, Internal.FixedIndexVec.remove,
      if_pos (hcond.mp hc), if_pos hc]
  · rw [FixedIndexVec.remove, Internal.FixedIndexVec.remove,
      if_neg (fun hx => hc (hcond.mpr hx)), if_neg hc]
    simp only [Prod.mk.injEq]
    constructor
    · rw [show (FixedIndexVec.ofInternal s).values.set i Pos.Empty =
          (s.values.set i Internal.Pos.Empty).map Pos.ofInternal by
        simp [FixedIndexVec.ofInternal, List.map_set, Pos.ofInternal]]
      rw [show (FixedIndexVec.ofInternal s).vacancies = s.vacancies from rfl]
      exact clean_right_map
        (⟨s.values.set i Internal.Pos.Empty,
          s.vacancies.take ((s.vacancies.takeWhile
            (fun previous_vacancy_index => decide (previous_vacancy_index < i))).length)
          ++ i :: s.vacancies.drop ((s.vacancies.takeWhile
            (fun previous_vacancy_index => decide (previous_vacancy_index < i))).length),
          s.reserved_spaces⟩ : Internal.FixedIndexVec Value)
    · rw [show pget (FixedIndexVec.ofInternal s).values i =
          Pos.ofInternal (Internal.pget s.values i) from pget_map s.values i]
      exact ofInternal_opt _

theorem push_reserved_map (s : Internal.FixedIndexVec Value) (i : Nat) (v : Value) :
    (FixedIndexVec.ofInternal s).push_reserved i v =
      (FixedIndexVec.ofInternal (s.push_reserved i v).1, (s.push_reserved i v).2) := by
  have hcond : (s.values.length ≤ i ∨ (Internal.pget s.values i).is_reserved = false) ↔
      ((FixedIndexVec.ofInternal s).values.length ≤ i ∨
        (pget (FixedIndexVec.ofInternal s).values i).is_reserved = false) := by
    simp [FixedIndexVec.ofInternal, pget_map, ofInternal_is_reserved]
  by_cases hc : s.values.length ≤ i ∨ (Internal.pget s.values i).is_reserved = false
  · rw [FixedIndexVec.push_reserved, Internal.FixedIndexVec.push_reserved,
      if_pos (hcond.mp hc), if_pos hc]
  · rw [FixedIndexVec.push_reserved, Internal.FixedIndexVec.push_reserved,
      if_neg (fun hx => hc (hcond.mpr hx)), if_neg hc]
    simp [FixedIndexVec.ofInternal, List.map_set, Pos.ofInternal]

theorem remove_reserved_pos_map (s : Internal.FixedIndexVec Value) (i : Nat) :
    (FixedIndexVec.ofInternal s).remove_reserved_pos i =
      (FixedIndexVec.ofInternal (s.remove_reserved_pos i).1,
        (s.remove_reserved_pos i).2) := by
  have hcond : (s.values.length ≤ i ∨ (Internal.pget s.values i).is_reserved = false) ↔
      ((FixedIndexVec.ofInternal s).values.length ≤ i ∨
        (pget (FixedIndexVec.ofInternal s).values i).is_reserved = false) := by
    simp [FixedIndexVec.ofInternal, pget_map, ofInternal_is_reserved]
  by_cases hc : s.values.length ≤ i ∨ (Internal.pget s.values i).is_reserved = false
  · rw [FixedIndexVec.remove_reserved_pos, Internal.FixedIndexVec.remove_reserved_pos,
      if_pos (hcond.mp hc), if_pos hc]
  · rw [FixedIndexVec.remove_reserved_pos, Internal.FixedIndexVec.remove_reserved_pos,
      if_neg (fun hx => hc (hcond.mpr hx)), if_neg hc]
    simp [FixedIndexVec.ofInternal, List.map_set, Pos.ofInternal]

theorem compress_map (s : Internal.FixedIndexVec Value) (b : Bool) :
    (FixedIndexVec.ofInternal s).compress b =
      (FixedIndexVec.ofInternal (s.compress b).1, (s.compress b).2) := by
  rw [FixedIndexVec.compress, Internal.FixedIndexVec.compress]
  rw [clean_right_map]
  have hvac : (FixedIndexVec.ofInternal (Internal.FixedIndexVec.clean_right s)).vacancies
      = (Internal.FixedIndexVec.clean_right s).vacancies := rfl
  by_cases hv : (Internal.FixedIndexVec.clean_right s).vacancies.isEmpty = true
  · rw [hvac, if_pos hv, if_pos hv]
  · rw [hvac, if_neg hv, if_neg hv]
    have hinit : ((FixedIndexVec.ofInternal (Internal.FixedIndexVec.clean_right s)).values,
        (FixedIndexVec.ofInternal (Internal.FixedIndexVec.clean_right s)).values.length,
        ([] : List (Nat × Nat))) =
        ((Internal.FixedIndexVec.clean_right s).values.map Pos.ofInternal,
         (Internal.FixedIndexVec.clean_right s).values.length, []) := by
      simp [FixedIndexVec.ofInternal]
    rw [hinit, compressFold_map]
    simp only [Prod.mk.injEq]
    refine ⟨?_, trivial⟩
    exact clean_right_map (⟨((Internal.FixedIndexVec.clean_right s).vacancies.foldl
        (Internal.FixedIndexVec.compressStep b)
        ((Internal.FixedIndexVec.clean_right s).values,
          (Internal.FixedIndexVec.clean_right s).values.length, [])).1, [],
      (Internal.FixedIndexVec.clean_right s).reserved_spaces⟩ : Internal.FixedIndexVec Value)

theorem clear_map (s : Internal.FixedIndexVec Value) :
    (FixedIndexVec.ofInternal s).clear = FixedIndexVec.ofInternal s.clear := rfl

theorem queries_map (s : Internal.FixedIndexVec Value) (i : Nat) :
    (FixedIndexVec.ofInternal s).len = s.len ∧
    (FixedIndexVec.ofInternal s).used_spaces_len = s.used_spaces_len ∧
    (FixedIndexVec.ofInternal s).reserved_spaces_len = s.reserved_spaces_len ∧
    (FixedIndexVec.ofInternal s).empty_spaces_len = s.empty_spaces_len ∧
    (FixedIndexVec.ofInternal s).contains_index i = s.contains_index i ∧
    (FixedIndexVec.ofInternal s).get i = s.get i ∧
    (FixedIndexVec.ofInternal s).get_mut i = s.get_mut i := by
  have hci : (FixedIndexVec.ofInternal s).contains_index i = s.contains_index i := by
    rw [FixedIndexVec.contains_index, Internal.FixedIndexVec.contains_index]
    rw [show (FixedIndexVec.ofInternal s).values = s.values.map Pos.ofInternal from rfl]
    rw [pget_map, ofInternal_is_used, List.length_map]
  refine ⟨by simp [FixedIndexVec.len, Internal.FixedIndexVec.len, FixedIndexVec.ofInternal],
    ?_,
    rfl, rfl, hci, ?_, ?_⟩
  · simp [FixedIndexVec.used_spaces_len, Internal.FixedIndexVec.used_spaces_len,
      FixedIndexVec.reserved_spaces_len, Internal.FixedIndexVec.reserved_spaces_len,
      FixedIndexVec.empty_spaces_len, Internal.FixedIndexVec.empty_spaces_len,
      FixedIndexVec.ofInternal]
  · rw [FixedIndexVec.get, Internal.FixedIndexVec.get, hci]
    by_cases hb : s.contains_index i = true
    · rw [if_pos hb, if_pos hb]
      rw [show (FixedIndexVec.ofInternal s).values = s.values.map Pos.ofInternal from rfl]
      rw [pget_map, ofInternal_opt]
    · rw [if_neg hb, if_neg hb]
  · rw [FixedIndexVec.get_mut, Internal.FixedIndexVec.get_mut, hci]
    by_cases hb : s.contains_index i = true
    · rw [if_pos hb, if_pos hb]
      rw [show (FixedIndexVec.ofInternal s).values = s.values.map Pos.ofInternal from rfl]
      rw [pget_map, ofInternal_opt]
    · rw [if_neg hb, if_neg hb]

theorem applyOp_map (s : Internal.FixedIndexVec Value) (op : Op Value) :
    applyOp (FixedIndexVec.ofInternal s) op =
      FixedIndexVec.ofInternal (applyOpInternal s op) := by
  cases op with
  | push v =>
    show ((FixedIndexVec.ofInternal s).push v).1 = _
    rw [push_map]
    rfl
  | remove i =>
    show ((FixedIndexVec.ofInternal s).remove i).1 = _
    rw [remove_map]
    rfl
  | reserve_pos =>
    show (FixedIndexVec.ofInternal s).reserve_pos.1 = _
    rw [reserve_pos_map]
    rfl
  | push_reserved i v =>
    show ((FixedIndexVec.ofInternal s).push_reserved i v).1 = _
    rw [push_reserved_map]
    rfl
  | remove_reserved_pos i =>
    show ((FixedIndexVec.ofInternal s).remove_reserved_pos i).1 = _
    rw [remove_reserved_pos_map]
    rfl
  | compress b =>
    show ((FixedIndexVec.ofInternal s).compress b).1 = _
    rw [compress_map]
    rfl
  | clear =>
    exact clear_map s

theorem runOps_map (ops : List (Op Value)) :
    ∀ s : Internal.FixedIndexVec Value,
      runOps (FixedIndexVec.ofInternal s) ops =
        FixedIndexVec.ofInternal (runOpsInternal s ops) := by
  induction ops with
  | nil => intro s; rfl
  | cons op rest ih =>
    intro s
    show runOps (applyOp (FixedIndexVec.ofInternal s) op) rest = _
    rw [applyOp_map]
    exact ih _

/-- C9: the public `FixedIndexVec` and the duplicate in src/internal agree on
the whole shared interface — each state-updating operation returns the same
value and (under the field-wise translation of internal states) the same
resulting state, every length/count/lookup query answers identically, and
hence every sequence of shared-interface calls produces translatable-equal
states. -/
theorem c9_implementations_agree {Value : Type} :
    (∀ (s : Internal.FixedIndexVec Value) (v : Value),
      (FixedIndexVec.ofInternal s).push v =
        (FixedIndexVec.ofInternal (s.push v).1, (s.push v).2)) ∧
    (∀ (s : Internal.FixedIndexVec Value) (i : Nat),
      (FixedIndexVec.ofInternal s).remove i =
        (FixedIndexVec.ofInternal (s.remove i).1, (s.remove i).2)) ∧
    (∀ s : Internal.FixedIndexVec Value,
      (FixedIndexVec.ofInternal s).reserve_pos =
        (FixedIndexVec.ofInternal s.reserve_pos.1, s.reserve_pos.2)) ∧
    (∀ (s : Internal.FixedIndexVec Value) (i : Nat) (v : Value),
      (FixedIndexVec.ofInternal s).push_reserved i v =
        (FixedIndexVec.ofInternal (s.push_reserved i v).1, (s.push_reserved i v).2)) ∧
    (∀ (s : Internal.FixedIndexVec Value) (i : Nat),
      (FixedIndexVec.ofInternal s).remove_reserved_pos i =
        (FixedIndexVec.ofInternal (s.remove_reserved_pos i).1,
          (s.remove_reserved_pos i).2)) ∧
    (∀ (s : Internal.FixedIndexVec Value) (b : Bool),
      (FixedIndexVec.ofInternal s).compress b =
        (FixedIndexVec.ofInternal (s.compress b).1, (s.compress b).2)) ∧
    (∀ s : Internal.FixedIndexVec Value,
      (FixedIndexVec.ofInternal s).clear = FixedIndexVec.ofInternal s.clear) ∧
    (∀ (s : Internal.FixedIndexVec Value) (i : Nat),
      (FixedIndexVec.ofInternal s).len = s.len ∧
      (FixedIndexVec.ofInternal s).used_spaces_len = s.used_spaces_len ∧
      (FixedIndexVec.ofInternal s).reserved_spaces_len = s.reserved_spaces_len ∧
      (FixedIndexVec.ofInternal s).empty_spaces_len = s.empty_spaces_len ∧
      (FixedIndexVec.ofInternal s).contains_index i = s.contains_index i ∧
      (FixedIndexVec.ofInternal s).get i = s.get i ∧
      (FixedIndexVec.ofInternal s).get_mut i = s.get_mut i) ∧
    (∀ (ops : List (Op Value)) (s : Internal.FixedIndexVec Value),
      runOps (FixedIndexVec.ofInternal s) ops =
        FixedIndexVec.ofInternal (runOpsInternal s ops)) :=
  ⟨push_map, remove_map, reserve_pos_map, push_reserved_map, remove_reserved_pos_map,
    compress_map, clear_map, queries_map, runOps_map⟩
